import Mathlib

/-!
Ripple cross-chain utilities: the decimal precision codec and the storage of
approval and payload records.

A shallow embedding of `contracts/native/cross_chain_manager/ripple/utils.go`.

Conventions of the embedding.

* A Go `string` is a finite sequence of bytes; it is modelled as `List Char`, one
  `Char` per byte.  The codec only ever compares a byte with the ASCII bytes
  `'0'`..`'9'`, `'.'`, `'+'` and `'-'`.
* `*big.Int` is `Int`.
* `uint64` precisions are `Nat`.  Every subtraction of the source on a `uint64`
  (`precise-destLen`, `destLen-precise`, `precise-floatLen`) sits under the guard
  that makes it non-wrapping, so no reduction modulo `2^64` changes a result and
  the theorems, stated for every `Nat`, cover every `uint64`.
* A Go run-time panic (index or slice out of range) is the result `none` of the
  codec functions; a normal return of `x` is `some x`.
-/

namespace Ripple

/-! ## Go library primitives used by the codec -/

/-- Byte test `'0' <= ch && ch <= '9'` of the digit loop of `math/big`. -/
def isDigit (c : Char) : Bool := decide (48 ≤ c.toNat) && decide (c.toNat ≤ 57)

/-- Value `ch - '0'` of a digit byte. -/
def digitVal (c : Char) : Nat := c.toNat - 48

/-- Byte `'0' + d` of a decimal digit `d`. -/
def digitChar (d : Nat) : Char := Char.ofNat (48 + d)

/-- Digit loop of `math/big` `nat.scan` in base 10 on the whole remaining input:
the accumulator is multiplied by ten and the digit added; a byte that is not a
decimal digit ends the number, and since `SetString` demands that the entire
string be consumed, such a byte makes the scan fail. -/
def scanDigits : List Char → Nat → Option Nat
  | [], acc => some acc
  | c :: cs, acc => if isDigit c then scanDigits cs (acc * 10 + digitVal c) else none

/-- Model of `(*big.Int).SetString(s, 10)`: an optional leading `+` or `-`, then at
least one decimal digit, and nothing else.  `none` is the failure result
`(nil, false)`; `some z` is `(z, true)`.  The value zero carries no sign. -/
def SetString (s : List Char) : Option Int :=
  match s with
  | [] => none
  | c :: r =>
    if c = '-' then
      (if r = [] then none else (scanDigits r 0).map (fun n => -(n : Int)))
    else if c = '+' then
      (if r = [] then none else (scanDigits r 0).map (fun n => (n : Int)))
    else (scanDigits (c :: r) 0).map (fun n => (n : Int))

/-- Digits of `n` in base 10, most significant first, pushed in front of `acc`;
the first argument bounds the number of digits produced. -/
def natStringAux : Nat → Nat → List Char → List Char
  | 0, _, acc => acc
  | fuel + 1, n, acc =>
    if n < 10 then digitChar n :: acc
    else natStringAux fuel (n / 10) (digitChar (n % 10) :: acc)

/-- Decimal representation of a natural number (`"0"` for zero, otherwise no
leading zero). -/
def natString (n : Nat) : List Char := natStringAux (n + 1) n []

/-- Model of `(*big.Int).String()`: the decimal representation, with a leading
`-` for a negative value. -/
def bigString (z : Int) : List Char :=
  if z < 0 then '-' :: natString z.natAbs else natString z.natAbs

/-- Go slice expression `s[lo:hi]` on a string: panics unless
`lo <= hi <= len(s)`. -/
def goSlice (s : List Char) (lo hi : Nat) : Option (List Char) :=
  if lo ≤ hi ∧ hi ≤ s.length then some ((s.take hi).drop lo) else none

/-- Model of `strings.Split(s, ".")`: the substrings between the `.` bytes; a
string with `k` dots yields `k + 1` pieces (the empty string yields one empty
piece). -/
def Split : List Char → List (List Char)
  | [] => [[]]
  | c :: cs =>
    if c = '.' then [] :: Split cs
    else
      match Split cs with
      | [] => [[c]]
      | h :: t => (c :: h) :: t

/-- Model of `strings.Replace(s, ".", "", 1)`: the first `.` byte is removed. -/
def ReplaceFirstDot : List Char → List Char
  | [] => []
  | c :: cs => if c = '.' then cs else c :: ReplaceFirstDot cs

/-! ## The codec (`utils.go`, lines 76 to 153) -/

/-- The loops `for ; i < k; i++ { s += "0" }` of the source: `k` times a `0` byte
is appended. -/
def appendZeros (s : List Char) : Nat → List Char
  | 0 => s
  | k + 1 => appendZeros (s ++ ['0']) k

/-- The loop of `removeZeroAtTail`: started with `i + 1` equal to the argument,
it walks `i` down while `str[i] == '0'` and returns the final `i + 1` (zero when
the loop ran off the front, `i = -1`). -/
def trimIndex (str : List Char) : Nat → Nat
  | 0 => 0
  | i + 1 => if str.get? i ≠ some '0' then i + 1 else trimIndex str i

/-- Translation of `removeZeroAtTail`: `str = str[:i+1]`, then the byte
`str[len(str)-1]` is read, which panics on the empty string, and a final `.` is
cut off. -/
def removeZeroAtTail (str : List Char) : Option (List Char) :=
  let str1 := str.take (trimIndex str str.length)
  match str1.get? (str1.length - 1) with
  | none => none
  | some c => if c = '.' then some (str1.take (str1.length - 1)) else some str1

/-- Translation of `toStringByPrecise`. -/
def toStringByPrecise (bigNum : Int) (precise : Nat) : Option (List Char) :=
  let destStr := bigString bigNum
  let destLen := destStr.length
  if precise ≥ destLen then
    removeZeroAtTail (appendZeros ['0', '.'] (precise - destLen) ++ destStr)
  else
    let pointIndex := destLen - precise
    match goSlice destStr 0 pointIndex, goSlice destStr pointIndex destLen with
    | some a, some b => removeZeroAtTail (a ++ ['.'] ++ b)
    | _, _ => none

/-- Translation of `ToStringByPrecise`: a value whose sign is not `-1` is
rendered directly, a negative one as `-` followed by the rendering of its
absolute value. -/
def ToStringByPrecise (bigNum : Int) (precise : Nat) : Option (List Char) :=
  if bigNum.sign ≠ -1 then toStringByPrecise bigNum precise
  else (toStringByPrecise (bigNum.natAbs : Int) precise).map (fun s => '-' :: s)

/-- The tail common to the branches of `ToIntByPrecise`: `result` stays the zero
value unless `SetString` succeeded. -/
def setOrZero (parseString : List Char) : Int :=
  match SetString parseString with
  | some value => value
  | none => 0

/-- Translation of `ToIntByPrecise`. -/
def ToIntByPrecise (str : List Char) (precise : Nat) : Option Int :=
  match Split str with
  | [_] => some (setOrZero (appendZeros str precise))
  | [s0, s1] =>
    let floatLen := s1.length
    if floatLen ≤ precise then
      some (setOrZero (appendZeros (ReplaceFirstDot str) (precise - floatLen)))
    else
      match goSlice s1 0 precise with
      | some t => some (setOrZero (s0 ++ t))
      | none => none
  | _ => some 0

/-! ## Vocabulary of the statements -/

/-- Positional value of a digit string in base 10 (most significant first). -/
def decVal (s : List Char) : Nat := s.foldl (fun acc c => acc * 10 + digitVal c) 0

/-- Every byte is a decimal digit. -/
def allDigits (s : List Char) : Bool := s.all isDigit

/-- An optionally signed, non-empty string of decimal digits. -/
def isSignedDigits (s : List Char) : Bool :=
  match s with
  | [] => false
  | c :: r => if c = '-' ∨ c = '+' then (!r.isEmpty && allDigits r) else allDigits (c :: r)

/-- Integer denoted by an optionally signed digit string. -/
def signedVal (s : List Char) : Int :=
  match s with
  | [] => 0
  | c :: r => if c = '-' then -(decVal r : Int) else if c = '+' then (decVal r : Int)
              else (decVal (c :: r) : Int)

/-- A byte that is neither a decimal digit nor the point. -/
def isForeign (c : Char) : Bool := !isDigit c && decide (c ≠ '.')

/-- The text contains a byte other than a decimal digit, a `.`, or one leading
`+` or `-` sign. -/
def hasForeign (s : List Char) : Bool :=
  match s with
  | [] => false
  | c :: r => (if c = '-' ∨ c = '+' then false else isForeign c) || r.any isForeign

/-- The part of the text that reaches the parser: for a text with exactly one
point, the integer part followed by the first `p` bytes of the fractional part;
otherwise the text itself. -/
def parsedPart (text : List Char) (p : Nat) : List Char :=
  match Split text with
  | [s0, s1] => s0 ++ s1.take p
  | _ => text

/-- The rendering without its leading `-`, if it has one. -/
def unsignedPart (s : List Char) : List Char :=
  match s with
  | [] => []
  | c :: r => if c = '-' then r else c :: r

/-- The integer part of a rendering: what stands between the sign, if any, and
the point, if any. -/
def intPart (s : List Char) : List Char :=
  match Split (unsignedPart s) with
  | [] => []
  | h :: _ => h

/-! ## Storage (`utils.go`, lines 30 to 74)

The collaborators of the four storage functions are not part of the sources that
are embedded here: the key-value store behind `native.GetCacheDB()`, the key
builder `utils.ConcatKey`, `utils.GetUint64Bytes`, the two category tags, the
contract address, the record type `MultisignInfo` and its RLP serialization.
They are modelled from the specification or taken as parameters.  A `[]byte` is
a `List Char` like a `string`, so that the conversions `[]byte(s)` and
`string(b)` are the identity.  Each function takes the store and returns the
store it leaves behind next to its Go results.
-/

/-- The error results of the storage functions, one per `fmt.Errorf` site. -/
inductive StoreError
  | encodeError
  | multisignReadError
  | decodeError
  | txJsonReadError
  | notFound
  deriving DecidableEq

/-- Modelled from the spec: the record type `MultisignInfo`, of which the
sources show the field `SigMap map[string]bool`.  The map is `none` when it is
nil (unconstructed) and `some l` when it is constructed with the entries `l`. -/
structure MultisignInfo where
  SigMap : Option (List (List Char × Bool))
  deriving DecidableEq

/-- Modelled from the spec: the byte-oriented key-value store returned by
`native.GetCacheDB()`, with `get(key) -> bytes | absent` and `put(key, bytes)`.
`entries key = none` is an absent key (`Get` returns nil); `readFails key` says
that reading the key ends in an error. -/
structure CacheDB where
  entries : List Char → Option (List Char)
  readFails : List Char → Bool

/-- Modelled from the spec: `CacheDB.Get`, the stored bytes or nil, or a read
error. -/
def CacheDB.Get (db : CacheDB) (key : List Char) : Except Unit (Option (List Char)) :=
  if db.readFails key then Except.error () else Except.ok (db.entries key)

/-- Modelled from the spec: `CacheDB.Put`, which binds the key to the bytes and
touches no other key. -/
def CacheDB.Put (db : CacheDB) (key blob : List Char) : CacheDB :=
  ⟨fun k => if k = key then some blob else db.entries k, db.readFails⟩

/-- Modelled from the spec: the binary serialization of a `MultisignInfo`
(`rlp.EncodeToBytes`, and `rlp.DecodeBytes` into a record that the caller
supplies), an out-of-scope collaborator taken as a parameter. -/
structure Rlp where
  EncodeToBytes : MultisignInfo → Except Unit (List Char)
  DecodeBytes : List Char → MultisignInfo → Except Unit MultisignInfo

/-- Modelled from the spec: `utils.ConcatKey`, the byte concatenation of the
contract address and the arguments, without separators. -/
def ConcatKey (contract : List Char) (args : List (List Char)) : List Char :=
  args.foldl (fun temp arg => temp ++ arg) contract

/-- The `k` low-order bytes of `n`, most significant first. -/
def beBytes : Nat → Nat → List Char
  | 0, _ => []
  | k + 1, n => beBytes k (n / 256) ++ [Char.ofNat (n % 256)]

/-- Modelled from the spec: `utils.GetUint64Bytes`, the eight big-endian bytes
of a `uint64`. -/
def GetUint64Bytes (num : Nat) : List Char := beBytes 8 num

/-- Modelled from the spec: the category tag `common.MULTISIGN_INFO` of approval
records. -/
def MULTISIGN_INFO : List Char := "multisign-info".toList

/-- Modelled from the spec: the category tag `common.RIPPLE_TX_INFO` of payload
records. -/
def RIPPLE_TX_INFO : List Char := "ripple-tx-info".toList

/-- Translation of `PutMultisignInfo`; `addr` stands for the constant
`utils.CrossChainManagerContractAddress`.  The first component is the returned
error (`none` for nil). -/
def PutMultisignInfo (rlp : Rlp) (addr : List Char) (db : CacheDB) (id : List Char)
    (multisignInfo : MultisignInfo) : Option StoreError × CacheDB :=
  let key := ConcatKey addr [MULTISIGN_INFO, id]
  match rlp.EncodeToBytes multisignInfo with
  | Except.error _ => (some StoreError.encodeError, db)
  | Except.ok blob => (none, db.Put key blob)

/-- Translation of `GetMultisignInfo`: the returned pointer (`none` for nil) and
error, and the store, which is only read. -/
def GetMultisignInfo (rlp : Rlp) (addr : List Char) (db : CacheDB) (id : List Char) :
    (Option MultisignInfo × Option StoreError) × CacheDB :=
  let key := ConcatKey addr [MULTISIGN_INFO, id]
  match db.Get key with
  | Except.error _ => ((none, some StoreError.multisignReadError), db)
  | Except.ok store =>
    let multisignInfo : MultisignInfo := ⟨some []⟩
    match store with
    | some blob =>
      match rlp.DecodeBytes blob multisignInfo with
      | Except.error _ => ((none, some StoreError.decodeError), db)
      | Except.ok decoded => ((some decoded, none), db)
    | none => ((some multisignInfo, none), db)

/-- Translation of `PutTxJsonInfo`; `fromChainId` is a `uint64`. -/
def PutTxJsonInfo (addr : List Char) (db : CacheDB) (fromChainId : Nat)
    (txHash txJson : List Char) : CacheDB :=
  let chainIdBytes := GetUint64Bytes fromChainId
  let key := ConcatKey addr [RIPPLE_TX_INFO, chainIdBytes, txHash]
  db.Put key txJson

/-- Translation of `GetTxJsonInfo`: the returned string and error, and the
store, which is only read. -/
def GetTxJsonInfo (addr : List Char) (db : CacheDB) (fromChainId : Nat)
    (txHash : List Char) : (List Char × Option StoreError) × CacheDB :=
  let chainIdBytes := GetUint64Bytes fromChainId
  let key := ConcatKey addr [RIPPLE_TX_INFO, chainIdBytes, txHash]
  match db.Get key with
  | Except.error _ => (([], some StoreError.txJsonReadError), db)
  | Except.ok store =>
    match store with
    | none => (([], some StoreError.notFound), db)
    | some bytes => ((bytes, none), db)

/-- The storage key of the approval record of a transaction id. -/
def approvalKey (addr id : List Char) : List Char := ConcatKey addr [MULTISIGN_INFO, id]

/-- The storage key of the payload record of a chain id and a hash. -/
def payloadKey (addr : List Char) (fromChainId : Nat) (txHash : List Char) : List Char :=
  ConcatKey addr [RIPPLE_TX_INFO, GetUint64Bytes fromChainId, txHash]

/-- A store without entries whose reads succeed. -/
def emptyStore : CacheDB := ⟨fun _ => none, fun _ => false⟩

/-- A store without entries whose reads all fail. -/
def failingStore : CacheDB := ⟨fun _ => none, fun _ => true⟩

/-- A sample record with two signers. -/
def sampleInfo : MultisignInfo := ⟨some [("alice".toList, true), ("bob".toList, false)]⟩

/-- A serializer that is sound on `sampleInfo`: it encodes every record as one
byte and decodes every blob as `sampleInfo`. -/
def sampleRlp : Rlp := ⟨fun _ => Except.ok ['s'], fun _ _ => Except.ok sampleInfo⟩

/-- A sample 20-byte contract address. -/
def sampleAddr : List Char := List.replicate 20 'a'

/-! ## Digits and positional value -/

theorem isDigit_digitChar (d : Nat) (h : d < 10) : isDigit (digitChar d) = true := by
  interval_cases d <;> decide

theorem digitVal_digitChar (d : Nat) (h : d < 10) : digitVal (digitChar d) = d := by
  interval_cases d <;> decide

theorem isDigit_ne_dot {c : Char} (h : isDigit c = true) : c ≠ '.' := by
  rintro rfl; revert h; decide

theorem isDigit_ne_minus {c : Char} (h : isDigit c = true) : c ≠ '-' := by
  rintro rfl; revert h; decide

theorem isDigit_ne_plus {c : Char} (h : isDigit c = true) : c ≠ '+' := by
  rintro rfl; revert h; decide

theorem foldl_decVal (s : List Char) (acc : Nat) :
    s.foldl (fun a c => a * 10 + digitVal c) acc = acc * 10 ^ s.length + decVal s := by
  induction s generalizing acc with
  | nil => simp [decVal]
  | cons c cs ih =>
    simp only [List.foldl_cons, List.length_cons, decVal]
    rw [ih, ih (0 * 10 + digitVal c)]
    ring

theorem decVal_nil : decVal [] = 0 := rfl

theorem decVal_append (a b : List Char) :
    decVal (a ++ b) = decVal a * 10 ^ b.length + decVal b := by
  unfold decVal
  rw [List.foldl_append, foldl_decVal]
  rfl

theorem decVal_replicate_zero (k : Nat) : decVal (List.replicate k '0') = 0 := by
  induction k with
  | zero => rfl
  | succ k ih =>
    rw [List.replicate_succ', decVal_append, ih]
    decide

theorem allDigits_append (a b : List Char) :
    allDigits (a ++ b) = (allDigits a && allDigits b) := by
  simp [allDigits]

theorem allDigits_replicate_zero (k : Nat) : allDigits (List.replicate k '0') = true := by
  simp only [allDigits, List.all_eq_true]
  intro c hc
  rw [List.eq_of_mem_replicate hc]
  decide

theorem not_dot_mem_of_allDigits {s : List Char} (h : allDigits s = true) : '.' ∉ s := by
  intro hm
  simp only [allDigits, List.all_eq_true] at h
  exact isDigit_ne_dot (h _ hm) rfl

theorem allDigits_take {s : List Char} (h : allDigits s = true) (k : Nat) :
    allDigits (s.take k) = true := by
  simp only [allDigits, List.all_eq_true] at h ⊢
  exact fun c hc => h c (List.mem_of_mem_take hc)

theorem allDigits_drop {s : List Char} (h : allDigits s = true) (k : Nat) :
    allDigits (s.drop k) = true := by
  simp only [allDigits, List.all_eq_true] at h ⊢
  exact fun c hc => h c (List.mem_of_mem_drop hc)

theorem scanDigits_of_allDigits (s : List Char) (acc : Nat) (h : allDigits s = true) :
    scanDigits s acc = some (acc * 10 ^ s.length + decVal s) := by
  induction s generalizing acc with
  | nil => simp [scanDigits, decVal]
  | cons c cs ih =>
    simp only [allDigits, List.all_cons, Bool.and_eq_true] at h
    have hcs : allDigits cs = true := h.2
    simp only [scanDigits, h.1, if_true]
    rw [ih _ hcs]
    have : decVal (c :: cs) = digitVal c * 10 ^ cs.length + decVal cs := by
      have := decVal_append [c] cs
      simpa [decVal] using this
    rw [this, List.length_cons]
    congr 1
    ring

theorem scanDigits_of_not_allDigits (s : List Char) (acc : Nat) (h : allDigits s = false) :
    scanDigits s acc = none := by
  induction s generalizing acc with
  | nil => simp [allDigits] at h
  | cons c cs ih =>
    simp only [scanDigits]
    by_cases hc : isDigit c = true
    · simp only [hc, if_true]
      apply ih
      simpa [allDigits, hc] using h
    · simp [hc]

/-! ## Decimal representation of a natural number -/

theorem natStringAux_eq (fuel n : Nat) (acc : List Char) (h : n < fuel) :
    natStringAux fuel n acc =
      (if n = 0 then ['0'] else ((Nat.digits 10 n).map digitChar).reverse) ++ acc := by
  induction fuel generalizing n acc with
  | zero => omega
  | succ fuel ih =>
    unfold natStringAux
    by_cases h10 : n < 10
    · simp only [h10, if_true]
      by_cases h0 : n = 0
      · subst h0; simp; decide
      · simp only [h0, if_false]
        rw [Nat.digits_of_lt 10 n h0 h10]
        simp
    · simp only [h10, if_false]
      have hn0 : n ≠ 0 := by omega
      have hq0 : n / 10 ≠ 0 := by omega
      have hq : n / 10 < fuel := by omega
      rw [ih (n / 10) _ hq]
      simp only [hn0, hq0, if_false]
      rw [Nat.digits_def' (by norm_num : 1 < 10) (Nat.pos_of_ne_zero hn0)]
      simp

theorem natString_eq (n : Nat) :
    natString n = if n = 0 then ['0'] else ((Nat.digits 10 n).map digitChar).reverse := by
  unfold natString
  rw [natStringAux_eq (n + 1) n [] (Nat.lt_succ_self n)]
  simp

theorem natString_zero : natString 0 = ['0'] := by
  rw [natString_eq]; simp

theorem natString_pos {n : Nat} (h : n ≠ 0) :
    natString n = ((Nat.digits 10 n).map digitChar).reverse := by
  rw [natString_eq]; simp [h]

theorem natString_ne_nil (n : Nat) : natString n ≠ [] := by
  by_cases h : n = 0
  · subst h; rw [natString_zero]; simp
  · rw [natString_pos h]
    simp [Nat.digits_ne_nil_iff_ne_zero, h]

theorem natString_length_pos (n : Nat) : 0 < (natString n).length :=
  List.length_pos.mpr (natString_ne_nil n)

theorem allDigits_natString (n : Nat) : allDigits (natString n) = true := by
  by_cases h : n = 0
  · subst h; rw [natString_zero]; decide
  · rw [natString_pos h]
    simp only [allDigits, List.all_eq_true, List.mem_reverse, List.mem_map]
    rintro c ⟨d, hd, rfl⟩
    exact isDigit_digitChar d (Nat.digits_lt_base (by norm_num) hd)

theorem decVal_digits (L : List Nat) (h : ∀ d ∈ L, d < 10) :
    decVal ((L.map digitChar).reverse) = Nat.ofDigits 10 L := by
  induction L with
  | nil => rfl
  | cons d L ih =>
    rw [List.map_cons, List.reverse_cons, decVal_append, ih (fun x hx => h x (List.mem_cons_of_mem _ hx)),
      Nat.ofDigits_cons]
    have hd : decVal [digitChar d] = d := by
      simp [decVal, digitVal_digitChar d (h d (List.mem_cons_self _ _))]
    rw [hd]
    simp
    ring

theorem decVal_natString (n : Nat) : decVal (natString n) = n := by
  by_cases h : n = 0
  · subst h; rw [natString_zero]; decide
  · rw [natString_pos h, decVal_digits _ (fun d hd => Nat.digits_lt_base (by norm_num) hd),
      Nat.ofDigits_digits]

theorem natString_mul_pow {m : Nat} (hm : m ≠ 0) (k : Nat) :
    natString (m * 10 ^ k) = natString m ++ List.replicate k '0' := by
  have hmk : m * 10 ^ k ≠ 0 := Nat.mul_ne_zero hm (by positivity)
  rw [natString_pos hmk, natString_pos hm, Nat.mul_comm,
    Nat.digits_base_pow_mul (by norm_num : 1 < 10) (Nat.pos_of_ne_zero hm)]
  simp only [List.map_append, List.reverse_append, List.map_replicate, List.reverse_replicate]
  congr 1

theorem natString_getLast_ne_zero {n : Nat} (h : n % 10 ≠ 0) :
    ∃ s c, natString n = s ++ [c] ∧ c ≠ '0' ∧ isDigit c = true := by
  have hn : n ≠ 0 := by rintro rfl; simp at h
  rw [natString_pos hn, Nat.digits_def' (by norm_num : 1 < 10) (Nat.pos_of_ne_zero hn)]
  refine ⟨((Nat.digits 10 (n / 10)).map digitChar).reverse, digitChar (n % 10), by simp, ?_,
    isDigit_digitChar _ (Nat.mod_lt _ (by norm_num))⟩
  have hlt : n % 10 < 10 := Nat.mod_lt _ (by norm_num)
  intro hc
  have := digitVal_digitChar (n % 10) hlt
  rw [hc] at this
  exact h (this.symm.trans (by decide))

/-! ## Parsing -/

theorem SetString_of_allDigits {s : List Char} (hne : s ≠ []) (h : allDigits s = true) :
    SetString s = some (decVal s : Int) := by
  cases s with
  | nil => exact absurd rfl hne
  | cons c r =>
    have hc : isDigit c = true := by
      simp only [allDigits, List.all_cons, Bool.and_eq_true] at h; exact h.1
    simp only [SetString, isDigit_ne_minus hc, isDigit_ne_plus hc, if_false]
    rw [scanDigits_of_allDigits _ _ h]
    simp

theorem SetString_minus {r : List Char} (hne : r ≠ []) (h : allDigits r = true) :
    SetString ('-' :: r) = some (-(decVal r : Int)) := by
  simp only [SetString, if_true, hne, if_false]
  rw [scanDigits_of_allDigits _ _ h]
  simp

theorem SetString_plus {r : List Char} (hne : r ≠ []) (h : allDigits r = true) :
    SetString ('+' :: r) = some (decVal r : Int) := by
  have hpm : ('+' : Char) ≠ '-' := by decide
  simp only [SetString, hpm, if_true, hne, if_false]
  rw [scanDigits_of_allDigits _ _ h]
  simp

theorem SetString_of_isSignedDigits {s : List Char} (h : isSignedDigits s = true) :
    SetString s = some (signedVal s) := by
  cases s with
  | nil => simp [isSignedDigits] at h
  | cons c r =>
    by_cases hm : c = '-'
    · subst hm
      simp only [isSignedDigits, true_or, if_true, Bool.and_eq_true, Bool.not_eq_true',
        List.isEmpty_eq_false] at h
      rw [SetString_minus h.1 h.2]
      simp [signedVal]
    · by_cases hp : c = '+'
      · subst hp
        simp only [isSignedDigits, or_true, if_true, Bool.and_eq_true, Bool.not_eq_true',
          List.isEmpty_eq_false] at h
        rw [SetString_plus h.1 h.2]
        simp [signedVal, hm]
      · simp only [isSignedDigits, hm, hp, or_self, if_false] at h
        rw [SetString_of_allDigits (by simp) h]
        simp [signedVal, hm, hp]

theorem setOrZero_of_isSignedDigits {s : List Char} (h : isSignedDigits s = true) :
    setOrZero s = signedVal s := by
  simp [setOrZero, SetString_of_isSignedDigits h]

theorem isSignedDigits_of_allDigits {s : List Char} (hne : s ≠ []) (h : allDigits s = true) :
    isSignedDigits s = true := by
  cases s with
  | nil => exact absurd rfl hne
  | cons c r =>
    have hc : isDigit c = true := by
      simp only [allDigits, List.all_cons, Bool.and_eq_true] at h; exact h.1
    simp only [isSignedDigits, isDigit_ne_minus hc, isDigit_ne_plus hc, or_self, if_false]
    exact h

theorem signedVal_of_allDigits {s : List Char} (h : allDigits s = true) :
    signedVal s = (decVal s : Int) := by
  cases s with
  | nil => rfl
  | cons c r =>
    have hc : isDigit c = true := by
      simp only [allDigits, List.all_cons, Bool.and_eq_true] at h; exact h.1
    simp [signedVal, isDigit_ne_minus hc, isDigit_ne_plus hc]

theorem isSignedDigits_append {i g : List Char} (hi : isSignedDigits i = true)
    (hg : allDigits g = true) : isSignedDigits (i ++ g) = true := by
  cases i with
  | nil => simp [isSignedDigits] at hi
  | cons c r =>
    simp only [List.cons_append, isSignedDigits] at hi ⊢
    by_cases hs : c = '-' ∨ c = '+'
    · simp only [hs, if_true, Bool.and_eq_true, Bool.not_eq_true', List.isEmpty_eq_false] at hi ⊢
      refine ⟨by simp [hi.1], ?_⟩
      rw [allDigits_append, hi.2, hg]; rfl
    · simp only [hs, if_false] at hi ⊢
      have := allDigits_append (c :: r) g
      rw [hi, hg] at this
      simpa using this

theorem not_dot_mem_of_isSignedDigits {i : List Char} (hi : isSignedDigits i = true) :
    '.' ∉ i := by
  cases i with
  | nil => simp
  | cons c r =>
    simp only [isSignedDigits] at hi
    by_cases hs : c = '-' ∨ c = '+'
    · simp only [hs, if_true, Bool.and_eq_true] at hi
      intro hm
      rcases List.mem_cons.mp hm with h | h
      · rcases hs with hs | hs <;> · rw [← h] at hs; revert hs; decide
      · exact not_dot_mem_of_allDigits hi.2 h
    · simp only [hs, if_false] at hi
      exact not_dot_mem_of_allDigits hi

theorem signedVal_append_zeros {i : List Char} (hne : i ≠ []) (k : Nat) :
    signedVal (i ++ List.replicate k '0') = signedVal i * 10 ^ k := by
  cases i with
  | nil => exact absurd rfl hne
  | cons c r =>
    simp only [List.cons_append, signedVal]
    have e1 : decVal (r ++ List.replicate k '0') = decVal r * 10 ^ k := by
      rw [decVal_append, decVal_replicate_zero]; simp
    have e2 : decVal (c :: (r ++ List.replicate k '0')) = decVal (c :: r) * 10 ^ k := by
      rw [← List.cons_append, decVal_append, decVal_replicate_zero]; simp
    by_cases hm : c = '-'
    · simp only [hm, if_true, e1]; push_cast; ring
    · by_cases hp : c = '+'
      · simp only [hm, hp, if_true, if_false, e1]; push_cast; ring
      · simp only [hm, hp, if_false, e2]; push_cast; ring

/-! ## Splitting at the decimal point -/

theorem Split_of_not_mem {s : List Char} (h : '.' ∉ s) : Split s = [s] := by
  induction s with
  | nil => rfl
  | cons c cs ih =>
    have hc : c ≠ '.' := fun e => h (e ▸ List.mem_cons_self _ _)
    have hcs : '.' ∉ cs := fun e => h (List.mem_cons_of_mem _ e)
    simp [Split, hc, ih hcs]

theorem Split_append_dot {a : List Char} (b : List Char) (h : '.' ∉ a) :
    Split (a ++ '.' :: b) = a :: Split b := by
  induction a with
  | nil => simp [Split]
  | cons c cs ih =>
    have hc : c ≠ '.' := fun e => h (e ▸ List.mem_cons_self _ _)
    have hcs : '.' ∉ cs := fun e => h (List.mem_cons_of_mem _ e)
    simp [Split, hc, ih hcs]

theorem Split_length (s : List Char) : (Split s).length = s.count '.' + 1 := by
  induction s with
  | nil => rfl
  | cons c cs ih =>
    by_cases hc : c = '.'
    · subst hc; simp [Split, ih]
    · have hc2 : ¬ ('.' : Char) = c := fun e => hc e.symm
      simp only [Split, hc, if_false, List.count_cons, beq_iff_eq, hc2]
      cases hsp : Split cs with
      | nil => rw [hsp] at ih; simp at ih
      | cons x t => rw [hsp] at ih; simpa using ih

theorem ReplaceFirstDot_append_dot {a : List Char} (b : List Char) (h : '.' ∉ a) :
    ReplaceFirstDot (a ++ '.' :: b) = a ++ b := by
  induction a with
  | nil => simp [ReplaceFirstDot]
  | cons c cs ih =>
    have hc : c ≠ '.' := fun e => h (e ▸ List.mem_cons_self _ _)
    have hcs : '.' ∉ cs := fun e => h (List.mem_cons_of_mem _ e)
    simp [ReplaceFirstDot, hc, ih hcs]

theorem exists_split_of_count_one {s : List Char} (h : s.count '.' = 1) :
    ∃ a b, s = a ++ '.' :: b ∧ '.' ∉ a ∧ '.' ∉ b := by
  have hm : '.' ∈ s := List.count_pos_iff.mp (by omega)
  obtain ⟨a, b, rfl⟩ := List.append_of_mem hm
  refine ⟨a, b, rfl, ?_, ?_⟩
  · intro ha
    have := List.count_pos_iff.mpr ha
    simp [List.count_append] at h
    omega
  · intro hb
    have := List.count_pos_iff.mpr hb
    simp [List.count_append] at h
    omega

theorem appendZeros_eq (s : List Char) (k : Nat) :
    appendZeros s k = s ++ List.replicate k '0' := by
  induction k generalizing s with
  | zero => simp [appendZeros]
  | succ k ih =>
    rw [appendZeros, ih, List.replicate_succ, List.append_assoc]
    rfl

/-! ## The three branches of the decoder -/

theorem decode_no_dot {text : List Char} (p : Nat) (h : '.' ∉ text) :
    ToIntByPrecise text p = some (setOrZero (text ++ List.replicate p '0')) := by
  simp [ToIntByPrecise, Split_of_not_mem h, appendZeros_eq]

theorem decode_one_dot {i f : List Char} (p : Nat) (hi : '.' ∉ i) (hf : '.' ∉ f) :
    ToIntByPrecise (i ++ '.' :: f) p =
      some (if f.length ≤ p then setOrZero (i ++ f ++ List.replicate (p - f.length) '0')
            else setOrZero (i ++ f.take p)) := by
  simp only [ToIntByPrecise, Split_append_dot f hi, Split_of_not_mem hf, appendZeros_eq,
    ReplaceFirstDot_append_dot f hi]
  by_cases hl : f.length ≤ p
  · simp [hl]
  · have : p ≤ f.length := by omega
    simp [hl, goSlice, this]

theorem decode_many_dots {text : List Char} (p : Nat) (h : 2 ≤ text.count '.') :
    ToIntByPrecise text p = some 0 := by
  have hlen := Split_length text
  unfold ToIntByPrecise
  split
  · rename_i e; rw [e] at hlen; simp at hlen; omega
  · rename_i e; rw [e] at hlen; simp at hlen; omega
  · rfl

/-! ## Trimming the tail -/

theorem trimIndex_zeros (X : List Char) (n k : Nat)
    (h : ∀ j, n ≤ j → j < n + k → X.get? j = some '0') :
    trimIndex X (n + k) = trimIndex X n := by
  induction k with
  | zero => rfl
  | succ k ih =>
    have hk : X.get? (n + k) = some '0' := h (n + k) (by omega) (by omega)
    rw [← Nat.add_assoc, trimIndex]
    simp only [hk, ne_eq, not_true_eq_false, if_false]
    exact ih (fun j h1 h2 => h j h1 (by omega))

theorem trimIndex_stop (X : List Char) (n : Nat) (h : X.get? n ≠ some '0') :
    trimIndex X (n + 1) = n + 1 := by
  unfold trimIndex
  rw [if_pos h]

theorem trimIndex_all_zeros (k : Nat) :
    trimIndex (List.replicate k '0') k = 0 := by
  have := trimIndex_zeros (List.replicate k '0') 0 k (by
    intro j _ hj
    simp only [Nat.zero_add] at hj
    simp [List.getElem?_replicate, hj])
  simpa [trimIndex] using this

theorem trimIndex_tail (s : List Char) (c : Char) (k : Nat) (hc : c ≠ '0') :
    trimIndex (s ++ c :: List.replicate k '0') (s ++ c :: List.replicate k '0').length
      = s.length + 1 := by
  have hlen : (s ++ c :: List.replicate k '0').length = (s.length + 1) + k := by
    simp; omega
  rw [hlen, trimIndex_zeros _ (s.length + 1) k, trimIndex_stop]
  · rw [List.get?_eq_getElem?, List.getElem?_append_right (le_refl _)]
    simp [hc]
  · intro j h1 h2
    have hj : s.length ≤ j := by omega
    rw [List.get?_eq_getElem?, List.getElem?_append_right hj]
    obtain ⟨m, hm⟩ : ∃ m, j - s.length = m + 1 := ⟨j - s.length - 1, by omega⟩
    rw [hm, List.getElem?_cons_succ, List.getElem?_replicate]
    have : m < k := by omega
    simp [this]

theorem removeZeroAtTail_tail (s : List Char) (c : Char) (k : Nat) (hc : c ≠ '0') :
    removeZeroAtTail (s ++ c :: List.replicate k '0') =
      some (if c = '.' then s else s ++ [c]) := by
  unfold removeZeroAtTail
  rw [trimIndex_tail s c k hc]
  have ht : (s ++ c :: List.replicate k '0').take (s.length + 1) = s ++ [c] := by
    rw [List.take_append_eq_append_take]
    simp
  simp only [ht]
  have hl : (s ++ [c]).length - 1 = s.length := by simp
  rw [hl]
  have hg : (s ++ [c]).get? s.length = some c := by simp
  rw [hg]
  by_cases hd : c = '.'
  · simp [hd]
  · simp [hd]

theorem exists_strip_zeros (b : List Char) :
    ∃ b1 k, b = b1 ++ List.replicate k '0' ∧
      (b1 = [] ∨ ∃ s c, b1 = s ++ [c] ∧ c ≠ '0') := by
  induction b using List.reverseRecOn with
  | nil => exact ⟨[], 0, rfl, Or.inl rfl⟩
  | append_singleton l a ih =>
    by_cases ha : a = '0'
    · obtain ⟨b1, k, hb, hb1⟩ := ih
      refine ⟨b1, k + 1, ?_, hb1⟩
      rw [hb, ha, List.replicate_succ', List.append_assoc]
    · exact ⟨l ++ [a], 0, by simp, Or.inr ⟨l, a, rfl, ha⟩⟩

/-- What the trimming does to `a.b` when `b` is a digit string: the zeros at the
end of `b` go, and the point goes with them when nothing of `b` is left. -/
theorem removeZeroAtTail_point (a b : List Char) (hb : allDigits b = true) :
    ∃ b1 k, b = b1 ++ List.replicate k '0' ∧
      removeZeroAtTail (a ++ ['.'] ++ b) = some (if b1 = [] then a else a ++ '.' :: b1) := by
  obtain ⟨b1, k, hbk, h1⟩ := exists_strip_zeros b
  refine ⟨b1, k, hbk, ?_⟩
  rcases h1 with h1 | ⟨s, c, h1, hc⟩
  · subst h1
    simp only [List.nil_append] at hbk
    rw [hbk, List.append_assoc, List.singleton_append,
      removeZeroAtTail_tail a '.' k (by decide)]
    simp
  · have hcd : isDigit c = true := by
      rw [hbk, h1] at hb
      simp only [allDigits, List.all_append, List.all_cons, List.all_nil, Bool.and_eq_true] at hb
      exact hb.1.2.1
    have hne : b1 ≠ [] := by rw [h1]; simp
    have e : a ++ ['.'] ++ b = (a ++ '.' :: s) ++ c :: List.replicate k '0' := by
      rw [hbk, h1]; simp
    rw [e, removeZeroAtTail_tail _ c k hc]
    simp [isDigit_ne_dot hcd, hne, h1]

/-! ## The encoder on a non-negative value -/

theorem bigString_natCast (n : Nat) : bigString (n : Int) = natString n := by
  simp [bigString]

theorem ToStringByPrecise_natCast (n p : Nat) :
    ToStringByPrecise (n : Int) p = toStringByPrecise (n : Int) p := by
  have h : (n : Int).sign ≠ -1 := by
    rcases Nat.eq_zero_or_pos n with h | h
    · subst h; simp
    · rw [Int.sign_eq_one_of_pos (by exact_mod_cast h)]; decide
  simp [ToStringByPrecise, h]

theorem toStringByPrecise_natCast (n p : Nat) :
    toStringByPrecise (n : Int) p =
      if (natString n).length ≤ p then
        removeZeroAtTail
          (['0'] ++ ['.'] ++ (List.replicate (p - (natString n).length) '0' ++ natString n))
      else
        removeZeroAtTail
          ((natString n).take ((natString n).length - p) ++ ['.'] ++
            (natString n).drop ((natString n).length - p)) := by
  unfold toStringByPrecise
  rw [bigString_natCast]
  by_cases h : (natString n).length ≤ p
  · simp [h, appendZeros_eq]
  · have h2 : ¬ p ≥ (natString n).length := by omega
    simp only [h, h2, if_false, goSlice]
    simp

/-- Shape of the rendering of a non-negative value: an integer part `a`, and a
fractional part `b1` followed by `k` zeros that are trimmed away, of `p` digits
together; the point is dropped when `b1` is empty. -/
theorem encode_shape (n p : Nat) :
    ∃ a b1 k, a ≠ [] ∧ allDigits a = true ∧ allDigits b1 = true ∧ b1.length + k = p ∧
      decVal (a ++ (b1 ++ List.replicate k '0')) = n ∧
      toStringByPrecise (n : Int) p = some (if b1 = [] then a else a ++ '.' :: b1) := by
  have hd := allDigits_natString n
  have hv := decVal_natString n
  have hpos := natString_length_pos n
  rw [toStringByPrecise_natCast]
  by_cases h : (natString n).length ≤ p
  · simp only [h, if_true]
    have hb : allDigits (List.replicate (p - (natString n).length) '0' ++ natString n) = true := by
      rw [allDigits_append, allDigits_replicate_zero, hd]; rfl
    obtain ⟨b1, k, hbk, hr⟩ := removeZeroAtTail_point ['0'] _ hb
    refine ⟨['0'], b1, k, by simp, by decide, ?_, ?_, ?_, hr⟩
    · rw [hbk, allDigits_append] at hb
      simp only [Bool.and_eq_true] at hb; exact hb.1
    · have := congrArg List.length hbk
      simp at this; omega
    · rw [← hbk, decVal_append, decVal_append, decVal_replicate_zero, hv]
      simp [decVal, digitVal]
  · simp only [h, if_false]
    have hb : allDigits ((natString n).drop ((natString n).length - p)) = true :=
      allDigits_drop hd _
    obtain ⟨b1, k, hbk, hr⟩ := removeZeroAtTail_point
      ((natString n).take ((natString n).length - p)) _ hb
    refine ⟨_, b1, k, ?_, allDigits_take hd _, ?_, ?_, ?_, hr⟩
    · intro e
      have := congrArg List.length e
      simp at this; omega
    · rw [hbk, allDigits_append] at hb
      simp only [Bool.and_eq_true] at hb; exact hb.1
    · have := congrArg List.length hbk
      simp at this; omega
    · rw [← hbk, List.take_append_drop, hv]

theorem encode_zero (p : Nat) : toStringByPrecise (0 : Int) p = some ['0'] := by
  have h := toStringByPrecise_natCast 0 p
  rw [natString_zero] at h
  simp only [Nat.cast_zero] at h
  rw [h]
  by_cases hp : 1 ≤ p
  · have e : List.replicate (p - 1) '0' ++ ['0'] = List.replicate p '0' := by
      rw [← List.replicate_succ']
      congr 1; omega
    simp only [List.length_singleton, hp, if_true, e]
    show removeZeroAtTail (['0'] ++ '.' :: List.replicate p '0') = _
    rw [removeZeroAtTail_tail ['0'] '.' p (by decide)]
    simp
  · have hp0 : p = 0 := by omega
    subst hp0
    decide

theorem encode_multiple {m : Nat} (hm : m ≠ 0) (p : Nat) :
    toStringByPrecise ((m * 10 ^ p : Nat) : Int) p = some (natString m) := by
  rw [toStringByPrecise_natCast, natString_mul_pow hm]
  have hpos := natString_length_pos m
  have h : ¬ (natString m ++ List.replicate p '0').length ≤ p := by
    rw [List.length_append, List.length_replicate]; omega
  simp only [h, if_false]
  have hl : (natString m ++ List.replicate p '0').length - p = (natString m).length := by simp
  rw [hl, List.take_left, List.drop_left, List.append_assoc, List.singleton_append,
    removeZeroAtTail_tail _ '.' p (by decide)]
  simp

theorem encode_untrimmed {n : Nat} (p : Nat) (hp : 1 ≤ p) (hn : n % 10 ≠ 0) :
    toStringByPrecise (n : Int) p =
      some (if (natString n).length ≤ p then
              ['0', '.'] ++ List.replicate (p - (natString n).length) '0' ++ natString n
            else (natString n).take ((natString n).length - p) ++ ['.'] ++
              (natString n).drop ((natString n).length - p)) := by
  obtain ⟨s, c, hs, hc0, hcd⟩ := natString_getLast_ne_zero hn
  rw [toStringByPrecise_natCast]
  by_cases h : (natString n).length ≤ p
  · simp only [h, if_true]
    rw [hs]
    have e : ['0'] ++ ['.'] ++ (List.replicate (p - (s ++ [c]).length) '0' ++ (s ++ [c])) =
        (['0', '.'] ++ List.replicate (p - (s ++ [c]).length) '0' ++ s) ++
          c :: List.replicate 0 '0' := by simp
    rw [e, removeZeroAtTail_tail _ c 0 hc0]
    simp [isDigit_ne_dot hcd]
  · simp only [h, if_false]
    have hlen : (natString n).length = s.length + 1 := by rw [hs]; simp
    have hle : (natString n).length - p ≤ s.length := by omega
    have e : (natString n).take ((natString n).length - p) ++ ['.'] ++
        (natString n).drop ((natString n).length - p) =
        ((natString n).take ((natString n).length - p) ++ '.' ::
          s.drop ((natString n).length - p)) ++ c :: List.replicate 0 '0' := by
      have hdrop : ∀ j, j ≤ s.length → (natString n).drop j = s.drop j ++ [c] := by
        intro j hj; rw [hs, List.drop_append_of_le_length hj]
      rw [hdrop _ hle]; simp
    rw [e, removeZeroAtTail_tail _ c 0 hc0]
    simp [isDigit_ne_dot hcd]

/-- Decoding the rendering described by `encode_shape` at the same precision,
with or without a sign in front. -/
theorem decode_shape (sgn a b1 : List Char) (k : Nat)
    (hs : isSignedDigits (sgn ++ a) = true) (hb : allDigits b1 = true) :
    ToIntByPrecise (sgn ++ (if b1 = [] then a else a ++ '.' :: b1)) (b1.length + k) =
      some (signedVal (sgn ++ a ++ (b1 ++ List.replicate k '0'))) := by
  have hdot := not_dot_mem_of_isSignedDigits hs
  by_cases h1 : b1 = []
  · subst h1
    simp only [if_true, List.length_nil, Nat.zero_add, List.nil_append]
    rw [decode_no_dot _ hdot,
      setOrZero_of_isSignedDigits (isSignedDigits_append hs (allDigits_replicate_zero k))]
  · simp only [h1, if_false]
    rw [← List.append_assoc, decode_one_dot _ hdot (not_dot_mem_of_allDigits hb)]
    have hle : b1.length ≤ b1.length + k := Nat.le_add_right _ _
    simp only [hle, if_true, Nat.add_sub_cancel_left]
    rw [List.append_assoc,
      setOrZero_of_isSignedDigits (isSignedDigits_append hs (by
        rw [allDigits_append, hb, allDigits_replicate_zero]; rfl))]

/-! ## Strings the parser rejects -/

theorem SetString_of_not_isSignedDigits {s : List Char} (h : isSignedDigits s = false) :
    SetString s = none := by
  cases s with
  | nil => rfl
  | cons c r =>
    simp only [isSignedDigits] at h
    by_cases hm : c = '-'
    · subst hm
      simp only [true_or, if_true] at h
      by_cases hr : r = []
      · simp [SetString, hr]
      · have : allDigits r = false := by simpa [hr] using h
        simp [SetString, hr, scanDigits_of_not_allDigits r 0 this]
    · by_cases hp : c = '+'
      · subst hp
        simp only [or_true, if_true] at h
        by_cases hr : r = []
        · simp [SetString, hr]
        · have : allDigits r = false := by simpa [hr] using h
          simp [SetString, hr, hm, scanDigits_of_not_allDigits r 0 this]
      · simp only [hm, hp, or_self, if_false] at h
        simp [SetString, hm, hp, scanDigits_of_not_allDigits (c :: r) 0 h]

theorem setOrZero_of_not_isSignedDigits {s : List Char} (h : isSignedDigits s = false) :
    setOrZero s = 0 := by
  simp [setOrZero, SetString_of_not_isSignedDigits h]

theorem setOrZero_eq (s : List Char) :
    setOrZero s = if isSignedDigits s = true then signedVal s else 0 := by
  by_cases h : isSignedDigits s = true
  · simp [h, setOrZero_of_isSignedDigits h]
  · have h2 : isSignedDigits s = false := by simpa using h
    simp [h2, setOrZero_of_not_isSignedDigits h2]

theorem allDigits_left {a b : List Char} (h : allDigits (a ++ b) = true) :
    allDigits a = true := by
  rw [allDigits_append] at h
  simp only [Bool.and_eq_true] at h; exact h.1

theorem setOrZero_zeros_of_not_isSignedDigits {text : List Char} (k : Nat)
    (h : isSignedDigits text = false) : setOrZero (text ++ List.replicate k '0') = 0 := by
  rw [setOrZero_eq]
  by_cases hs : isSignedDigits (text ++ List.replicate k '0') = true
  · simp only [hs, if_true]
    cases text with
    | nil =>
      simp only [List.nil_append]
      rw [signedVal_of_allDigits (allDigits_replicate_zero k), decVal_replicate_zero]; rfl
    | cons c r =>
      simp only [List.cons_append, isSignedDigits] at h hs
      by_cases hsg : c = '-' ∨ c = '+'
      · simp only [hsg, if_true, Bool.and_eq_true] at h hs
        have hr : r = [] := by
          by_contra hne
          have : allDigits r = true := allDigits_left hs.2
          simp [hne, this] at h
        subst hr
        rcases hsg with rfl | rfl <;> simp [signedVal, decVal_replicate_zero]
      · simp only [hsg, if_false] at h hs
        have : allDigits (c :: r) = true := @allDigits_left (c :: r) (List.replicate k '0') hs
        rw [this] at h; exact absurd h (by decide)
  · simp [hs]

theorem not_isSignedDigits_of_hasForeign {s : List Char} (t : List Char)
    (h : hasForeign s = true) : isSignedDigits (s ++ t) = false := by
  cases s with
  | nil => simp [hasForeign] at h
  | cons c r =>
    have key : ∀ l : List Char, l.any isForeign = true → ∀ u, allDigits (l ++ u) = false := by
      intro l hl u
      obtain ⟨x, hx, hxf⟩ := List.any_eq_true.mp hl
      have hxd : isDigit x = false := by
        simp only [isForeign, Bool.and_eq_true, Bool.not_eq_true'] at hxf; exact hxf.1
      by_contra hall
      have hall2 : allDigits (l ++ u) = true := by simpa using hall
      simp only [allDigits, List.all_eq_true] at hall2
      have := hall2 x (List.mem_append_left _ hx)
      rw [hxd] at this; exact absurd this (by decide)
    simp only [hasForeign] at h
    simp only [List.cons_append, isSignedDigits]
    by_cases hsg : c = '-' ∨ c = '+'
    · simp only [hsg, if_true, Bool.false_or] at h ⊢
      rw [key r h t]; simp
    · simp only [hsg, if_false] at h ⊢
      have : (c :: r).any isForeign = true := by simpa using h
      exact key (c :: r) this t

/-! ## Truncation is the floor -/

theorem digitVal_le_nine {c : Char} (h : isDigit c = true) : digitVal c ≤ 9 := by
  simp only [isDigit, Bool.and_eq_true, decide_eq_true_eq] at h
  unfold digitVal; omega

theorem decVal_lt (s : List Char) (h : allDigits s = true) : decVal s < 10 ^ s.length := by
  induction s using List.reverseRecOn with
  | nil => simp [decVal]
  | append_singleton l a ih =>
    rw [allDigits_append] at h
    simp only [Bool.and_eq_true] at h
    have ha : isDigit a = true := by
      have := h.2; simpa [allDigits] using this
    have h9 := digitVal_le_nine ha
    have hl := ih h.1
    rw [decVal_append]
    have e : decVal [a] = digitVal a := by simp [decVal]
    rw [e]
    simp only [List.length_append, List.length_singleton, pow_succ, pow_zero, one_mul]
    omega

theorem decVal_take_eq_div (d f : List Char) (p : Nat) (hf : allDigits f = true) :
    decVal (d ++ f.take p) = decVal (d ++ f) / 10 ^ (f.length - p) := by
  have hlt := decVal_lt _ (allDigits_drop hf p)
  rw [List.length_drop] at hlt
  have e : decVal (d ++ f) =
      decVal (d ++ f.take p) * 10 ^ (f.length - p) + decVal (f.drop p) := by
    conv_lhs => rw [← List.take_append_drop p f, ← List.append_assoc, decVal_append]
    rw [List.length_drop]
  symm
  apply Nat.div_eq_of_lt_le
  · rw [e]; exact Nat.le_add_right _ _
  · rw [e, Nat.add_mul, Nat.one_mul]; omega

theorem floor_scaled (N L p : Nat) (h : p ≤ L) :
    ((N / 10 ^ (L - p) : Nat) : Int) = ⌊((N : Int) : ℚ) / 10 ^ L * 10 ^ p⌋ := by
  have e : ((N : Int) : ℚ) / 10 ^ L * 10 ^ p = ((N : ℚ) / ((10 ^ (L - p) : Nat) : ℚ)) := by
    have hL : (10 : ℚ) ^ L = 10 ^ (L - p) * 10 ^ p := by
      rw [← pow_add, Nat.sub_add_cancel h]
    rw [hL]
    push_cast
    field_simp
    ring
  rw [e, Rat.floor_natCast_div_natCast]
  push_cast
  rfl

theorem signedVal_digits_part {i : List Char} (hi : isSignedDigits i = true) :
    ∃ (σ : Int) (d : List Char), (σ = 1 ∨ σ = -1) ∧
      ∀ g, signedVal (i ++ g) = σ * (decVal (d ++ g) : Int) := by
  cases i with
  | nil => simp [isSignedDigits] at hi
  | cons c r =>
    by_cases hm : c = '-'
    · exact ⟨-1, r, Or.inr rfl, fun g => by simp [signedVal, hm]⟩
    · by_cases hp : c = '+'
      · exact ⟨1, r, Or.inl rfl, fun g => by simp [signedVal, hm, hp]⟩
      · exact ⟨1, c :: r, Or.inl rfl, fun g => by simp [signedVal, hm, hp]⟩

theorem signedVal_take_floor {i f : List Char} (p : Nat) (hi : isSignedDigits i = true)
    (hf : allDigits f = true) (hlen : p ≤ f.length) (hx : 0 ≤ signedVal (i ++ f)) :
    signedVal (i ++ f.take p) = ⌊((signedVal (i ++ f) : ℚ) / 10 ^ f.length) * 10 ^ p⌋ := by
  obtain ⟨σ, d, hσ, hv⟩ := signedVal_digits_part hi
  have hdiv := decVal_take_eq_div d f p hf
  rw [hv f] at hx
  rw [hv (f.take p), hv f, hdiv]
  rcases hσ with rfl | rfl
  · simp only [one_mul]
    exact floor_scaled _ _ _ hlen
  · have hN : decVal (d ++ f) = 0 := by
      have : (0 : Int) ≤ (decVal (d ++ f) : Int) := Int.natCast_nonneg _
      omega
    simp [hN]

/-! ## The claims about the codec -/

/-- Claim C1: round trip at equal precision.  For every non-negative integer `v`
and every precision `p`, `ToStringByPrecise v p` returns a string, and
`ToIntByPrecise` applied to that string at the same precision returns `v`. -/
theorem roundtrip_nonneg (v : Int) (p : Nat) (hv : 0 ≤ v) :
    (ToStringByPrecise v p).bind (fun s => ToIntByPrecise s p) = some v := by
  obtain ⟨n, rfl⟩ := Int.eq_ofNat_of_zero_le hv
  obtain ⟨a, b1, k, hne, ha, hb, hlen, hval, henc⟩ := encode_shape n p
  rw [ToStringByPrecise_natCast, henc, Option.some_bind]
  have hs : isSignedDigits ([] ++ a) = true := isSignedDigits_of_allDigits hne ha
  have hdec := decode_shape [] a b1 k hs hb
  simp only [List.nil_append] at hdec
  rw [hlen] at hdec
  rw [hdec, signedVal_of_allDigits, hval]
  rw [allDigits_append, allDigits_append, ha, hb, allDigits_replicate_zero]; rfl

theorem roundtrip_nonneg_witness :
    (ToStringByPrecise 12050 3).bind (fun s => ToIntByPrecise s 3) = some 12050 :=
  roundtrip_nonneg 12050 3 (by decide)

/-- Claim C2: decode truncates, it does not round.  For an optionally signed
non-empty digit string `i` and a digit string `f` longer than the precision `p`,
`ToIntByPrecise (i ++ "." ++ f) p` is the integer denoted by `i` followed by the
first `p` bytes of `f`; and when the decimal `i.f` is non-negative, that integer
is the floor of its value times `10^p`. -/
theorem decode_truncates (p : Nat) (i f : List Char) (hi : isSignedDigits i = true)
    (hf : allDigits f = true) (hlen : p < f.length) :
    ToIntByPrecise (i ++ '.' :: f) p = some (signedVal (i ++ f.take p)) ∧
      (0 ≤ signedVal (i ++ f) →
        signedVal (i ++ f.take p) =
          ⌊((signedVal (i ++ f) : ℚ) / 10 ^ f.length) * 10 ^ p⌋) := by
  refine ⟨?_, fun hx => signedVal_take_floor p hi hf (Nat.le_of_lt hlen) hx⟩
  rw [decode_one_dot p (not_dot_mem_of_isSignedDigits hi) (not_dot_mem_of_allDigits hf),
    if_neg (Nat.not_le_of_lt hlen),
    setOrZero_of_isSignedDigits (isSignedDigits_append hi (allDigits_take hf p))]

theorem decode_truncates_witness : ToIntByPrecise "1.2345".toList 2 = some 123 :=
  (decode_truncates 2 "1".toList "2345".toList (by decide) (by decide) (by decide)).1

/-- Claim C3: decode pads short fractions exactly.  For an optionally signed
non-empty digit string `i` and a digit string `f` of length at most `p`,
`ToIntByPrecise (i ++ "." ++ f) p` is the integer denoted by `i` followed by `f`
(sign of `i` included) times `10^(p - length f)`. -/
theorem decode_pads (p : Nat) (i f : List Char) (hi : isSignedDigits i = true)
    (hf : allDigits f = true) (hlen : f.length ≤ p) :
    ToIntByPrecise (i ++ '.' :: f) p =
      some (signedVal (i ++ f) * 10 ^ (p - f.length)) := by
  have hif : isSignedDigits (i ++ f) = true := isSignedDigits_append hi hf
  have hne : i ++ f ≠ [] := by
    intro e; rw [e] at hif; exact absurd hif (by decide)
  rw [decode_one_dot p (not_dot_mem_of_isSignedDigits hi) (not_dot_mem_of_allDigits hf),
    if_pos hlen,
    setOrZero_of_isSignedDigits (isSignedDigits_append hif (allDigits_replicate_zero _)),
    signedVal_append_zeros hne]

theorem decode_pads_witness :
    ToIntByPrecise "1.25".toList 2 = some 125 ∧ ToIntByPrecise "-0.5".toList 3 = some (-500) :=
  ⟨decode_pads 2 "1".toList "25".toList (by decide) (by decide) (by decide),
   decode_pads 3 "-0".toList "5".toList (by decide) (by decide) (by decide)⟩

/-- Claim C4: decode of a text without a point.  For a text containing no `.`,
`ToIntByPrecise text p` is `n * 10^p` when the text is an optionally signed
non-empty digit string denoting `n`; it is `0` when the text followed by `p`
zeros is rejected by the base-10 parser, and more generally whenever the text is
not an optionally signed non-empty digit string (empty text included). -/
theorem decode_without_point (p : Nat) (text : List Char) (h : '.' ∉ text) :
    (isSignedDigits text = true → ToIntByPrecise text p = some (signedVal text * 10 ^ p)) ∧
    (SetString (text ++ List.replicate p '0') = none → ToIntByPrecise text p = some 0) ∧
    (isSignedDigits text = false → ToIntByPrecise text p = some 0) := by
  rw [decode_no_dot p h]
  refine ⟨fun hs => ?_, fun hn => ?_, fun hs => ?_⟩
  · have hne : text ≠ [] := by
      intro e; rw [e] at hs; exact absurd hs (by decide)
    rw [setOrZero_of_isSignedDigits (isSignedDigits_append hs (allDigits_replicate_zero _)),
      signedVal_append_zeros hne]
  · simp [setOrZero, hn]
  · rw [setOrZero_zeros_of_not_isSignedDigits p hs]

theorem decode_without_point_witness :
    ToIntByPrecise "42".toList 3 = some 42000 ∧ ToIntByPrecise "4x".toList 3 = some 0 ∧
      ToIntByPrecise [] 3 = some 0 :=
  ⟨(decode_without_point 3 "42".toList (by decide)).1 (by decide),
   (decode_without_point 3 "4x".toList (by decide)).2.1 (by decide),
   (decode_without_point 3 [] (by decide)).2.2 (by decide)⟩

/-- Claim C5: integral values render without a decimal point.  For every
precision `p` and every non-negative integer `v` divisible by `10^p`,
`ToStringByPrecise v p` is exactly the decimal representation of `v / 10^p`,
which consists of digits only. -/
theorem encode_integral (v : Int) (p : Nat) (hv : 0 ≤ v) (hd : (10 : Int) ^ p ∣ v) :
    ToStringByPrecise v p = some (bigString (v / 10 ^ p)) ∧
      allDigits (bigString (v / 10 ^ p)) = true := by
  obtain ⟨n, rfl⟩ := Int.eq_ofNat_of_zero_le hv
  have hdn : 10 ^ p ∣ n := by exact_mod_cast hd
  obtain ⟨m, rfl⟩ := hdn
  have hq : ((10 ^ p * m : Nat) : Int) / 10 ^ p = (m : Int) := by
    have : (10 ^ p * m) / 10 ^ p = m := Nat.mul_div_cancel_left m (by positivity)
    exact_mod_cast this
  rw [hq, bigString_natCast, ToStringByPrecise_natCast]
  refine ⟨?_, allDigits_natString m⟩
  by_cases hm : m = 0
  · subst hm
    simp only [Nat.mul_zero, Nat.cast_zero]
    rw [encode_zero, natString_zero]
  · rw [Nat.mul_comm, encode_multiple hm]

theorem encode_integral_witness :
    ToStringByPrecise 100 2 = some "1".toList ∧ ToStringByPrecise 120 0 = some "120".toList :=
  ⟨(encode_integral 100 2 (by decide) (by decide)).1,
   (encode_integral 120 0 (by decide) (by decide)).1⟩

/-- Claim C6: placement of the decimal point.  For every precision `p >= 1` and
every positive integer `v` whose last decimal digit is not `0`, with `digits` the
decimal representation of `v` and `len` its length, `ToStringByPrecise v p` is
`"0."` followed by `p - len` zeros and `digits` when `p >= len`, and otherwise
`digits[0 : len-p]`, a point, and `digits[len-p :]`; nothing is trimmed. -/
theorem encode_point_placement (v : Int) (p : Nat) (hp : 1 ≤ p) (hv : 0 < v)
    (h10 : v % 10 ≠ 0) :
    ToStringByPrecise v p =
      some (if (bigString v).length ≤ p then
              ['0', '.'] ++ List.replicate (p - (bigString v).length) '0' ++ bigString v
            else (bigString v).take ((bigString v).length - p) ++ ['.'] ++
              (bigString v).drop ((bigString v).length - p)) := by
  obtain ⟨n, rfl⟩ := Int.eq_ofNat_of_zero_le (Int.le_of_lt hv)
  have hn : n % 10 ≠ 0 := by
    intro e; apply h10; exact_mod_cast e
  rw [ToStringByPrecise_natCast, bigString_natCast, encode_untrimmed p hp hn]

theorem encode_point_placement_witness :
    ToStringByPrecise 1 3 = some "0.001".toList ∧
      ToStringByPrecise 12345 2 = some "123.45".toList :=
  ⟨encode_point_placement 1 3 (by decide) (by decide) (by decide),
   encode_point_placement 12345 2 (by decide) (by decide) (by decide)⟩

/-- Claim C7: zero renders as `"0"` at every precision, `p = 0` included. -/
theorem zero_renders_zero (p : Nat) : ToStringByPrecise 0 p = some ['0'] := by
  have h := ToStringByPrecise_natCast 0 p
  simp only [Nat.cast_zero] at h
  rw [h, encode_zero]

/-- Claim C8: sign handling of encode.  For every negative integer `v` and every
precision `p`, `ToStringByPrecise (-v) p` returns a string `s` and
`ToStringByPrecise v p` returns `-` followed by `s`. -/
theorem encode_negative (v : Int) (p : Nat) (hv : v < 0) :
    ∃ s, ToStringByPrecise (-v) p = some s ∧ ToStringByPrecise v p = some ('-' :: s) := by
  obtain ⟨n, rfl⟩ := Int.eq_negSucc_of_lt_zero hv
  obtain ⟨a, b1, k, _, _, _, _, _, henc⟩ := encode_shape (n + 1) p
  have hneg : -Int.negSucc n = ((n + 1 : Nat) : Int) := rfl
  refine ⟨if b1 = [] then a else a ++ '.' :: b1, ?_, ?_⟩
  · rw [hneg, ToStringByPrecise_natCast, henc]
  · have hsign : (Int.negSucc n).sign = -1 := rfl
    have habs : ((Int.negSucc n).natAbs : Int) = ((n + 1 : Nat) : Int) := rfl
    simp only [ToStringByPrecise, hsign, ne_eq, not_true_eq_false, if_false]
    rw [habs, henc]
    rfl

theorem encode_negative_witness :
    ∃ s, ToStringByPrecise (-(-5)) 2 = some s ∧ ToStringByPrecise (-5) 2 = some ('-' :: s) :=
  encode_negative (-5) 2 (by decide)

/-- Claim C9 as stated fails: the text `1.2x` contains a byte that is neither a
digit, a point nor a leading sign, yet at precision 1 the decoder returns 12,
because the byte lies beyond the first fractional digit and is cut off before
parsing. -/
theorem malformed_decode_counterexample :
    ¬ (hasForeign "1.2x".toList = true → ToIntByPrecise "1.2x".toList 1 = some 0) := by
  decide

theorem decode_zero_of_foreign (p : Nat) (text : List Char)
    (h : hasForeign (parsedPart text p) = true) : ToIntByPrecise text p = some 0 := by
  rcases Nat.lt_trichotomy (text.count '.') 1 with hc | hc | hc
  · have hnot : '.' ∉ text := by
      intro hm
      have := List.count_pos_iff.mpr hm
      omega
    have hpp : parsedPart text p = text := by
      simp [parsedPart, Split_of_not_mem hnot]
    rw [hpp] at h
    rw [decode_no_dot p hnot,
      setOrZero_of_not_isSignedDigits (not_isSignedDigits_of_hasForeign _ h)]
  · obtain ⟨i, f, rfl, hi, hf⟩ := exists_split_of_count_one hc
    have hpp : parsedPart (i ++ '.' :: f) p = i ++ f.take p := by
      simp [parsedPart, Split_append_dot f hi, Split_of_not_mem hf]
    rw [hpp] at h
    rw [decode_one_dot p hi hf]
    by_cases hl : f.length ≤ p
    · rw [if_pos hl]
      rw [List.take_of_length_le hl] at h
      rw [setOrZero_of_not_isSignedDigits (not_isSignedDigits_of_hasForeign _ h)]
    · rw [if_neg hl]
      have := not_isSignedDigits_of_hasForeign [] h
      rw [List.append_nil] at this
      rw [setOrZero_of_not_isSignedDigits this]
  · exact decode_many_dots p (by omega)

theorem decode_tail_irrelevant (p : Nat) (i f : List Char) (hi : '.' ∉ i) (hf : '.' ∉ f)
    (hlen : p < f.length) :
    ToIntByPrecise (i ++ '.' :: f) p = ToIntByPrecise (i ++ '.' :: f.take p) p := by
  have hft : '.' ∉ f.take p := fun hm => hf (List.mem_of_mem_take hm)
  have hl : (f.take p).length = p := by
    rw [List.length_take]; omega
  rw [decode_one_dot p hi hf, decode_one_dot p hi hft, if_neg (Nat.not_le_of_lt hlen), hl]
  simp

/-- Claim C9, amended: malformed decode input degrades to zero whenever the
malformed byte reaches the parser.  For every precision `p`: (1) for every text,
if the parsed part of the text (the text itself, or for a text with exactly one
point the integer part followed by the first `p` bytes of the fractional part)
contains a byte other than a decimal digit, a point or one leading sign, then
`ToIntByPrecise text p` returns `0` without a panic; (2) the bytes of the
fractional part beyond the first `p` are cut off before parsing and do not
affect the result: for a text `i.f` with exactly one point and `f` longer than
`p`, `ToIntByPrecise (i.f) p` equals `ToIntByPrecise` of `i` followed by a point
and the first `p` bytes of `f`. -/
theorem malformed_decode_zero (p : Nat) :
    (∀ text : List Char, hasForeign (parsedPart text p) = true →
      ToIntByPrecise text p = some 0) ∧
    (∀ i f : List Char, '.' ∉ i → '.' ∉ f → p < f.length →
      ToIntByPrecise (i ++ '.' :: f) p = ToIntByPrecise (i ++ '.' :: f.take p) p) :=
  ⟨fun text h => decode_zero_of_foreign p text h,
   fun i f hi hf hlen => decode_tail_irrelevant p i f hi hf hlen⟩

theorem malformed_decode_zero_witness :
    ToIntByPrecise "1.x5".toList 1 = some 0 ∧ ToIntByPrecise "12a".toList 4 = some 0 ∧
      ToIntByPrecise "1.2x".toList 1 = ToIntByPrecise "1.2".toList 1 :=
  ⟨(malformed_decode_zero 1).1 "1.x5".toList (by decide),
   (malformed_decode_zero 4).1 "12a".toList (by decide),
   (malformed_decode_zero 1).2 "1".toList "2x".toList (by decide) (by decide) (by decide)⟩

/-- Claim C10: more than one decimal point gives zero.  For every precision `p`
and every text containing two or more `.` bytes, `ToIntByPrecise text p`
returns `0`. -/
theorem many_points_zero (p : Nat) (text : List Char) (h : 2 ≤ text.count '.') :
    ToIntByPrecise text p = some 0 :=
  decode_many_dots p h

theorem many_points_zero_witness : ToIntByPrecise "1.2.3".toList 2 = some 0 :=
  many_points_zero 2 "1.2.3".toList (by decide)

/-! ## Decoding a rendering at another precision -/

theorem decode_shape_at (sgn a b1 : List Char) (q : Nat)
    (hs : isSignedDigits (sgn ++ a) = true) (hb : allDigits b1 = true) :
    ToIntByPrecise (sgn ++ (if b1 = [] then a else a ++ '.' :: b1)) q =
      some (if b1.length ≤ q then signedVal (sgn ++ a ++ b1) * 10 ^ (q - b1.length)
            else signedVal (sgn ++ a ++ b1.take q)) := by
  have hdot := not_dot_mem_of_isSignedDigits hs
  have hne : sgn ++ a ≠ [] := by
    intro e; rw [e] at hs; exact absurd hs (by decide)
  by_cases h1 : b1 = []
  · subst h1
    simp only [if_true, List.length_nil, Nat.zero_le, Nat.sub_zero, List.append_nil]
    rw [decode_no_dot _ hdot,
      setOrZero_of_isSignedDigits (isSignedDigits_append hs (allDigits_replicate_zero q)),
      signedVal_append_zeros hne]
  · simp only [h1, if_false]
    rw [← List.append_assoc, decode_one_dot _ hdot (not_dot_mem_of_allDigits hb)]
    have hsb : isSignedDigits (sgn ++ a ++ b1) = true := isSignedDigits_append hs hb
    have hne2 : sgn ++ a ++ b1 ≠ [] := by
      intro e; rw [e] at hsb; exact absurd hsb (by decide)
    by_cases hl : b1.length ≤ q
    · simp only [hl, if_true]
      rw [setOrZero_of_isSignedDigits (isSignedDigits_append hsb (allDigits_replicate_zero _)),
        signedVal_append_zeros hne2]
    · simp only [hl, if_false]
      rw [setOrZero_of_isSignedDigits (isSignedDigits_append hs (allDigits_take hb q))]

theorem signedVal_minus (g : List Char) : signedVal ('-' :: g) = -(decVal g : Int) := by
  simp [signedVal]

theorem scale_arith (D k L q : Nat) :
    D * 10 ^ k * 10 ^ q / 10 ^ (L + k) =
      if L ≤ q then D * 10 ^ (q - L) else D / 10 ^ (L - q) := by
  have hk : 0 < 10 ^ k := by positivity
  have e1 : D * 10 ^ k * 10 ^ q / 10 ^ (L + k) = D * 10 ^ q / 10 ^ L := by
    rw [pow_add, show D * 10 ^ k * 10 ^ q = D * 10 ^ q * 10 ^ k by ring]
    exact Nat.mul_div_mul_right _ _ hk
  rw [e1]
  by_cases h : L ≤ q
  · simp only [h, if_true]
    have : (10 : Nat) ^ q = 10 ^ (q - L) * 10 ^ L := by
      rw [← pow_add, Nat.sub_add_cancel h]
    rw [this, ← Nat.mul_assoc]
    exact Nat.mul_div_cancel _ (by positivity)
  · simp only [h, if_false]
    have hq : q ≤ L := by omega
    have : (10 : Nat) ^ L = 10 ^ (L - q) * 10 ^ q := by
      rw [← pow_add, Nat.sub_add_cancel hq]
    rw [this]
    exact Nat.mul_div_mul_right _ _ (by positivity)

/-- Decoding, at precision `q`, the rendering at precision `p` of a natural
number `n`, with or without a `-` in front: the magnitude is `n * 10^q / 10^p`. -/
theorem decode_encoded (n p q : Nat) (neg : Bool) :
    ∃ s, toStringByPrecise (n : Int) p = some s ∧
      ToIntByPrecise ((if neg = true then ['-'] else []) ++ s) q =
        some ((if neg = true then -1 else 1) * ((n * 10 ^ q / 10 ^ p : Nat) : Int)) := by
  obtain ⟨a, b1, k, hne, ha, hb, hlen, hval, henc⟩ := encode_shape n p
  refine ⟨_, henc, ?_⟩
  have hab : allDigits (a ++ b1) = true := by rw [allDigits_append, ha, hb]; rfl
  have hat : allDigits (a ++ b1.take q) = true := by
    rw [allDigits_append, ha, allDigits_take hb q]; rfl
  have hn : n = decVal (a ++ b1) * 10 ^ k := by
    rw [← hval, ← List.append_assoc, decVal_append, decVal_replicate_zero]; simp
  have hM : n * 10 ^ q / 10 ^ p =
      if b1.length ≤ q then decVal (a ++ b1) * 10 ^ (q - b1.length)
      else decVal (a ++ b1.take q) := by
    rw [hn, ← hlen, scale_arith, decVal_take_eq_div a b1 q hb]
  cases neg with
  | false =>
    have hs : isSignedDigits ([] ++ a) = true := isSignedDigits_of_allDigits hne ha
    have hdec := decode_shape_at [] a b1 q hs hb
    simp only [List.nil_append] at hdec
    simp only [Bool.false_eq_true, if_false, List.nil_append, one_mul]
    rw [hdec, hM, signedVal_of_allDigits hab, signedVal_of_allDigits hat]
    split_ifs <;> simp
  | true =>
    have hs : isSignedDigits (['-'] ++ a) = true := by
      cases a with
      | nil => exact absurd rfl hne
      | cons c r => simpa [isSignedDigits] using ha
    have hdec := decode_shape_at ['-'] a b1 q hs hb
    simp only [if_true]
    rw [hdec, hM]
    simp only [List.singleton_append, List.cons_append, signedVal_minus]
    split_ifs <;> simp

theorem ToStringByPrecise_negSucc (n p : Nat) :
    ToStringByPrecise (Int.negSucc n) p =
      (toStringByPrecise ((n + 1 : Nat) : Int) p).map (fun s => '-' :: s) := by
  have hsign : (Int.negSucc n).sign = -1 := rfl
  have habs : ((Int.negSucc n).natAbs : Int) = ((n + 1 : Nat) : Int) := rfl
  simp only [ToStringByPrecise, hsign, ne_eq, not_true_eq_false, if_false]
  rw [habs]

/-- Encode at precision `p`, then decode at precision `q`, on any integer: the
sign is kept and the magnitude is `|v| * 10^q / 10^p`. -/
theorem encode_then_decode (v : Int) (p q : Nat) :
    (ToStringByPrecise v p).bind (fun s => ToIntByPrecise s q) =
      some (v.sign * ((v.natAbs * 10 ^ q / 10 ^ p : Nat) : Int)) := by
  rcases Int.lt_or_le v 0 with hv | hv
  · obtain ⟨n, rfl⟩ := Int.eq_negSucc_of_lt_zero hv
    obtain ⟨s, hs, hd⟩ := decode_encoded (n + 1) p q true
    rw [ToStringByPrecise_negSucc, hs]
    simp only [if_true, List.singleton_append] at hd
    simp only [Option.map_some', Option.some_bind]
    rw [hd]
    rfl
  · obtain ⟨n, rfl⟩ := Int.eq_ofNat_of_zero_le hv
    obtain ⟨s, hs, hd⟩ := decode_encoded n p q false
    rw [ToStringByPrecise_natCast, hs]
    simp only [Bool.false_eq_true, if_false, List.nil_append, one_mul] at hd
    simp only [Option.some_bind]
    rw [hd]
    rcases Nat.eq_zero_or_pos n with h0 | h0
    · subst h0; simp
    · rw [Int.sign_eq_one_of_pos (by exact_mod_cast h0)]
      simp

theorem sign_mul_natAbs_div (v : Int) (m : Nat) :
    v.sign * ((v.natAbs / m : Nat) : Int) = v.tdiv (m : Int) := by
  cases v with
  | ofNat n =>
    rcases Nat.eq_zero_or_pos n with h0 | h0
    · subst h0; simp
    · have : (Int.ofNat n).sign = 1 := Int.sign_eq_one_of_pos (Int.ofNat_lt.mpr h0)
      rw [this, one_mul]
      rfl
  | negSucc n =>
    have hsign : (Int.negSucc n).sign = -1 := rfl
    rw [hsign]
    show -1 * (((n + 1) / m : Nat) : Int) = -(((n + 1) / m : Nat) : Int)
    ring

/-! ## Shape of every rendering -/

theorem removeZeroAtTail_point_last (a b : List Char) (hb : allDigits b = true) :
    ∃ b1, allDigits b1 = true ∧ (b1 = [] ∨ ∃ s c, b1 = s ++ [c] ∧ c ≠ '0') ∧
      removeZeroAtTail (a ++ ['.'] ++ b) = some (if b1 = [] then a else a ++ '.' :: b1) := by
  obtain ⟨b1, k, hbk, h1⟩ := exists_strip_zeros b
  have hb1 : allDigits b1 = true := by rw [hbk] at hb; exact allDigits_left hb
  refine ⟨b1, hb1, h1, ?_⟩
  rcases h1 with h1 | ⟨s, c, h1, hc⟩
  · subst h1
    simp only [List.nil_append] at hbk
    rw [hbk, List.append_assoc, List.singleton_append,
      removeZeroAtTail_tail a '.' k (by decide)]
    simp
  · have hcd : isDigit c = true := by
      rw [h1] at hb1
      simp only [allDigits, List.all_append, List.all_cons, List.all_nil, Bool.and_eq_true] at hb1
      exact hb1.2.1
    have hne : b1 ≠ [] := by rw [h1]; simp
    have e : a ++ ['.'] ++ b = (a ++ '.' :: s) ++ c :: List.replicate k '0' := by
      rw [hbk, h1]; simp
    rw [e, removeZeroAtTail_tail _ c k hc]
    simp [isDigit_ne_dot hcd, hne, h1]

theorem digitChar_ne_zero {d : Nat} (hd : d < 10) (h0 : d ≠ 0) : digitChar d ≠ '0' := by
  intro hc
  have := digitVal_digitChar d hd
  rw [hc] at this
  exact h0 (this.symm.trans (by decide))

theorem natString_head {n : Nat} (h : n ≠ 0) : (natString n).head? ≠ some '0' := by
  rw [natString_pos h, List.head?_reverse, List.getLast?_map,
    List.getLast?_eq_getLast _ (Nat.digits_ne_nil_iff_ne_zero.mpr h)]
  simp only [Option.map_some', ne_eq, Option.some.injEq]
  exact digitChar_ne_zero
    (Nat.digits_lt_base (by norm_num) (List.getLast_mem _))
    (Nat.getLast_digit_ne_zero 10 h)

theorem encode_shape_canonical (n p : Nat) :
    ∃ a b1, a ≠ [] ∧ allDigits a = true ∧ allDigits b1 = true ∧
      (a = ['0'] ∨ a.head? ≠ some '0') ∧ (b1 = [] ∨ ∃ s c, b1 = s ++ [c] ∧ c ≠ '0') ∧
      toStringByPrecise (n : Int) p = some (if b1 = [] then a else a ++ '.' :: b1) := by
  have hd := allDigits_natString n
  have hpos := natString_length_pos n
  rw [toStringByPrecise_natCast]
  by_cases h : (natString n).length ≤ p
  · simp only [h, if_true]
    have hb : allDigits (List.replicate (p - (natString n).length) '0' ++ natString n) = true := by
      rw [allDigits_append, allDigits_replicate_zero, hd]; rfl
    obtain ⟨b1, hb1, hlast, hr⟩ := removeZeroAtTail_point_last ['0'] _ hb
    exact ⟨['0'], b1, by simp, by decide, hb1, Or.inl rfl, hlast, hr⟩
  · simp only [h, if_false]
    obtain ⟨b1, hb1, hlast, hr⟩ := removeZeroAtTail_point_last
      ((natString n).take ((natString n).length - p)) _ (allDigits_drop hd _)
    refine ⟨_, b1, ?_, allDigits_take hd _, hb1, ?_, hlast, hr⟩
    · intro e
      have := congrArg List.length e
      simp at this; omega
    · by_cases hn : n = 0
      · left
        subst hn
        rw [natString_zero] at h ⊢
        have hp : p = 0 := by simp at h; omega
        subst hp; rfl
      · right
        rw [List.head?_take]
        have : (natString n).length - p ≠ 0 := by omega
        simp only [this, if_false]
        exact natString_head hn

theorem ToStringByPrecise_shape (v : Int) (p : Nat) :
    ∃ sgn a b1, (sgn = [] ∨ sgn = ['-']) ∧ a ≠ [] ∧ allDigits a = true ∧
      allDigits b1 = true ∧ (a = ['0'] ∨ a.head? ≠ some '0') ∧
      (b1 = [] ∨ ∃ s c, b1 = s ++ [c] ∧ c ≠ '0') ∧
      ToStringByPrecise v p = some (sgn ++ (if b1 = [] then a else a ++ '.' :: b1)) := by
  rcases Int.lt_or_le v 0 with hv | hv
  · obtain ⟨n, rfl⟩ := Int.eq_negSucc_of_lt_zero hv
    obtain ⟨a, b1, h1, h2, h3, h4, h5, henc⟩ := encode_shape_canonical (n + 1) p
    refine ⟨['-'], a, b1, Or.inr rfl, h1, h2, h3, h4, h5, ?_⟩
    rw [ToStringByPrecise_negSucc, henc]
    rfl
  · obtain ⟨n, rfl⟩ := Int.eq_ofNat_of_zero_le hv
    obtain ⟨a, b1, h1, h2, h3, h4, h5, henc⟩ := encode_shape_canonical n p
    refine ⟨[], a, b1, Or.inl rfl, h1, h2, h3, h4, h5, ?_⟩
    rw [ToStringByPrecise_natCast, henc]
    rfl

theorem count_dot_of_allDigits {s : List Char} (h : allDigits s = true) : s.count '.' = 0 :=
  List.count_eq_zero.mpr (not_dot_mem_of_allDigits h)

theorem getLast?_of_allDigits {s : List Char} (hne : s ≠ []) (h : allDigits s = true) :
    ∃ c, s.getLast? = some c ∧ isDigit c = true := by
  refine ⟨s.getLast hne, List.getLast?_eq_getLast _ hne, ?_⟩
  simp only [allDigits, List.all_eq_true] at h
  exact h _ (List.getLast_mem hne)

theorem intPart_shape (sgn a b1 : List Char) (hsgn : sgn = [] ∨ sgn = ['-'])
    (hne : a ≠ []) (ha : allDigits a = true) :
    intPart (sgn ++ (if b1 = [] then a else a ++ '.' :: b1)) = a := by
  have hun : unsignedPart (sgn ++ (if b1 = [] then a else a ++ '.' :: b1)) =
      (if b1 = [] then a else a ++ '.' :: b1) := by
    rcases hsgn with rfl | rfl
    · cases a with
      | nil => exact absurd rfl hne
      | cons c r =>
        have hc : isDigit c = true := by
          simp only [allDigits, List.all_cons, Bool.and_eq_true] at ha; exact ha.1
        by_cases h1 : b1 = [] <;> simp [h1, unsignedPart, isDigit_ne_minus hc]
    · simp [unsignedPart]
  unfold intPart
  rw [hun]
  by_cases h1 : b1 = []
  · simp [h1, Split_of_not_mem (not_dot_mem_of_allDigits ha)]
  · simp [h1, Split_append_dot b1 (not_dot_mem_of_allDigits ha)]

theorem ToIntByPrecise_isSome (text : List Char) (p : Nat) :
    (ToIntByPrecise text p).isSome = true := by
  unfold ToIntByPrecise
  split
  · rfl
  · rename_i s0 s1 _
    by_cases hl : s1.length ≤ p
    · simp [hl]
    · have : p ≤ s1.length := by omega
      simp [hl, goSlice, this]
  · rfl

theorem removeZeroAtTail_isSome {str : List Char} (h : '.' ∈ str) :
    (removeZeroAtTail str).isSome = true := by
  obtain ⟨b1, k, hbk, h1⟩ := exists_strip_zeros str
  rcases h1 with h1 | ⟨s, c, h1, hc⟩
  · subst h1
    rw [hbk] at h
    simp only [List.nil_append] at h
    have := List.eq_of_mem_replicate h
    exact absurd this (by decide)
  · rw [hbk, h1, List.append_assoc, List.singleton_append, removeZeroAtTail_tail s c k hc]
    rfl

/-! ## Storage keys -/

theorem approvalKey_eq (addr id : List Char) :
    approvalKey addr id = addr ++ MULTISIGN_INFO ++ id := rfl

theorem payloadKey_eq (addr : List Char) (c : Nat) (h : List Char) :
    payloadKey addr c h = addr ++ RIPPLE_TX_INFO ++ GetUint64Bytes c ++ h := rfl

theorem approvalKey_injective {addr id1 id2 : List Char}
    (h : approvalKey addr id1 = approvalKey addr id2) : id1 = id2 := by
  rw [approvalKey_eq, approvalKey_eq] at h
  exact List.append_cancel_left h

theorem toNat_ofNat_byte {n : Nat} (h : n < 256) : (Char.ofNat n).toNat = n := by
  have hv : n.isValidChar := Or.inl (by omega)
  unfold Char.ofNat
  rw [dif_pos hv]
  simp [Char.ofNatAux, Char.toNat, UInt32.toNat]

theorem beBytes_length (k n : Nat) : (beBytes k n).length = k := by
  induction k generalizing n with
  | zero => rfl
  | succ k ih => simp [beBytes, ih]

theorem beBytes_injective (k n m : Nat) (h : beBytes k n = beBytes k m) :
    n % 256 ^ k = m % 256 ^ k := by
  induction k generalizing n m with
  | zero => simp [Nat.mod_one]
  | succ k ih =>
    simp only [beBytes] at h
    have hlen : (beBytes k (n / 256)).length = (beBytes k (m / 256)).length := by
      rw [beBytes_length, beBytes_length]
    obtain ⟨h1, h2⟩ := List.append_inj h hlen
    have hq := ih _ _ h1
    have hr : n % 256 = m % 256 := by
      have h3 : Char.ofNat (n % 256) = Char.ofNat (m % 256) := by simpa using h2
      have := congrArg Char.toNat h3
      rwa [toNat_ofNat_byte (Nat.mod_lt _ (by norm_num)),
        toNat_ofNat_byte (Nat.mod_lt _ (by norm_num))] at this
    rw [Nat.pow_succ, Nat.mul_comm, Nat.mod_mul, Nat.mod_mul, hq, hr]

theorem GetUint64Bytes_length (c : Nat) : (GetUint64Bytes c).length = 8 :=
  beBytes_length 8 c

theorem GetUint64Bytes_injective {c1 c2 : Nat} (h1 : c1 < 2 ^ 64) (h2 : c2 < 2 ^ 64)
    (h : GetUint64Bytes c1 = GetUint64Bytes c2) : c1 = c2 := by
  have := beBytes_injective 8 c1 c2 h
  have e : (256 : Nat) ^ 8 = 2 ^ 64 := by norm_num
  rw [e, Nat.mod_eq_of_lt h1, Nat.mod_eq_of_lt h2] at this
  exact this

theorem payloadKey_injective {addr : List Char} {c1 c2 : Nat} {t1 t2 : List Char}
    (h1 : c1 < 2 ^ 64) (h2 : c2 < 2 ^ 64)
    (h : payloadKey addr c1 t1 = payloadKey addr c2 t2) : c1 = c2 ∧ t1 = t2 := by
  rw [payloadKey_eq, payloadKey_eq, List.append_assoc, List.append_assoc,
    List.append_assoc, List.append_assoc] at h
  have h3 := List.append_cancel_left (List.append_cancel_left h)
  have hlen : (GetUint64Bytes c1).length = (GetUint64Bytes c2).length := by
    rw [GetUint64Bytes_length, GetUint64Bytes_length]
  obtain ⟨h4, h5⟩ := List.append_inj h3 hlen
  exact ⟨GetUint64Bytes_injective h1 h2 h4, h5⟩

theorem payloadKey_ne_approvalKey (addr : List Char) (c : Nat) (t id : List Char) :
    payloadKey addr c t ≠ approvalKey addr id := by
  intro h
  rw [payloadKey_eq, approvalKey_eq, List.append_assoc, List.append_assoc,
    List.append_assoc] at h
  have h3 := List.append_cancel_left h
  have hr : RIPPLE_TX_INFO = 'r' :: "ipple-tx-info".toList := by decide
  have hm : MULTISIGN_INFO = 'm' :: "ultisign-info".toList := by decide
  rw [hr, hm, List.cons_append, List.cons_append] at h3
  have := (List.cons.inj h3).1
  exact absurd this (by decide)

/-! ## Reading after writing -/

theorem Get_Put_same (db : CacheDB) (key blob : List Char) :
    (db.Put key blob).Get key =
      if db.readFails key = true then Except.error () else Except.ok (some blob) := by
  simp [CacheDB.Get, CacheDB.Put]

theorem Get_Put_other (db : CacheDB) {key key2 : List Char} (blob : List Char)
    (h : key2 ≠ key) : (db.Put key blob).Get key2 = db.Get key2 := by
  simp [CacheDB.Get, CacheDB.Put, h]

theorem GetMultisignInfo_congr (rlp : Rlp) (addr : List Char) (db1 db2 : CacheDB)
    (id : List Char) (h : db1.Get (approvalKey addr id) = db2.Get (approvalKey addr id)) :
    (GetMultisignInfo rlp addr db1 id).1 = (GetMultisignInfo rlp addr db2 id).1 := by
  have h2 : db1.Get (ConcatKey addr [MULTISIGN_INFO, id]) =
      db2.Get (ConcatKey addr [MULTISIGN_INFO, id]) := h
  simp only [GetMultisignInfo, h2]
  cases db2.Get (ConcatKey addr [MULTISIGN_INFO, id]) with
  | error e => rfl
  | ok store =>
    cases store with
    | none => rfl
    | some blob =>
      simp only
      cases rlp.DecodeBytes blob ⟨some []⟩ <;> rfl

theorem GetTxJsonInfo_congr (addr : List Char) (db1 db2 : CacheDB) (c : Nat)
    (t : List Char) (h : db1.Get (payloadKey addr c t) = db2.Get (payloadKey addr c t)) :
    (GetTxJsonInfo addr db1 c t).1 = (GetTxJsonInfo addr db2 c t).1 := by
  have h2 : db1.Get (ConcatKey addr [RIPPLE_TX_INFO, GetUint64Bytes c, t]) =
      db2.Get (ConcatKey addr [RIPPLE_TX_INFO, GetUint64Bytes c, t]) := h
  simp only [GetTxJsonInfo, h2]
  cases db2.Get (ConcatKey addr [RIPPLE_TX_INFO, GetUint64Bytes c, t]) with
  | error e => rfl
  | ok store => cases store <;> rfl

theorem canonical_of_shape (sgn a b1 : List Char) (hsgn : sgn = [] ∨ sgn = ['-'])
    (hne : a ≠ []) (ha : allDigits a = true) (hb : allDigits b1 = true)
    (hlast : b1 = [] ∨ ∃ s c, b1 = s ++ [c] ∧ c ≠ '0') :
    sgn ++ (if b1 = [] then a else a ++ '.' :: b1) ≠ [] ∧
    (sgn ++ (if b1 = [] then a else a ++ '.' :: b1)).count '.' ≤ 1 ∧
    (sgn ++ (if b1 = [] then a else a ++ '.' :: b1)).getLast? ≠ some '.' ∧
    ('.' ∈ sgn ++ (if b1 = [] then a else a ++ '.' :: b1) →
      ∃ c, (sgn ++ (if b1 = [] then a else a ++ '.' :: b1)).getLast? = some c ∧
        isDigit c = true ∧ c ≠ '0') := by
  have hsc : sgn.count '.' = 0 := by
    rcases hsgn with rfl | rfl
    · rfl
    · decide
  have hsd : '.' ∉ sgn := List.count_eq_zero.mp hsc
  obtain ⟨ca, hca, hcad⟩ := getLast?_of_allDigits hne ha
  rcases hlast with h1 | ⟨t, c, h1, hc⟩
  · subst h1
    simp only [if_true]
    refine ⟨by simp [hne], ?_, ?_, ?_⟩
    · rw [List.count_append, hsc, count_dot_of_allDigits ha]; omega
    · rw [List.getLast?_append, hca]
      show (some ca : Option Char) ≠ some '.'
      simp only [ne_eq, Option.some.injEq]
      exact isDigit_ne_dot hcad
    · intro hm
      rcases List.mem_append.mp hm with hm | hm
      · exact absurd hm hsd
      · exact absurd hm (not_dot_mem_of_allDigits ha)
  · have hb1 : b1 ≠ [] := by rw [h1]; simp
    have hcd : isDigit c = true := by
      rw [h1] at hb
      simp only [allDigits, List.all_append, List.all_cons, List.all_nil, Bool.and_eq_true] at hb
      exact hb.2.1
    have hl : (sgn ++ (a ++ '.' :: b1)).getLast? = some c := by
      have e : sgn ++ (a ++ '.' :: b1) = (sgn ++ (a ++ '.' :: t)) ++ [c] := by
        rw [h1]; simp
      rw [e, List.getLast?_concat]
    simp only [hb1, if_false]
    refine ⟨by simp, ?_, ?_, fun _ => ⟨c, hl, hcd, hc⟩⟩
    · rw [List.count_append, List.count_append, List.count_cons, hsc,
        count_dot_of_allDigits ha, count_dot_of_allDigits hb]
      simp
    · rw [hl]
      simp only [ne_eq, Option.some.injEq]
      exact isDigit_ne_dot hcd

/-! ## The claims about the storage functions -/

/-- Claim C11: payload save then load.  For every store, chain id `c`, hash `t`
and payload `s`, after `PutTxJsonInfo c t s` a `GetTxJsonInfo c t` whose store
read succeeds returns exactly `s` and no error, and leaves the store as it is. -/
theorem payload_save_load (addr : List Char) (db : CacheDB) (c : Nat) (t s : List Char)
    (hread : (PutTxJsonInfo addr db c t s).readFails (payloadKey addr c t) = false) :
    GetTxJsonInfo addr (PutTxJsonInfo addr db c t s) c t =
      ((s, none), PutTxJsonInfo addr db c t s) := by
  have hread2 : db.readFails (ConcatKey addr [RIPPLE_TX_INFO, GetUint64Bytes c, t]) = false :=
    hread
  simp [GetTxJsonInfo, PutTxJsonInfo, CacheDB.Get, CacheDB.Put, hread2]

theorem payload_save_load_witness :
    GetTxJsonInfo sampleAddr (PutTxJsonInfo sampleAddr emptyStore 7 "ab".toList "json".toList)
        7 "ab".toList =
      (("json".toList, none),
        PutTxJsonInfo sampleAddr emptyStore 7 "ab".toList "json".toList) :=
  payload_save_load sampleAddr emptyStore 7 "ab".toList "json".toList rfl

/-- Claim C12: payload load fails exactly on read failure or absence.  For every
store, chain id `c` and hash `t`, `GetTxJsonInfo c t` returns an error if and
only if the read of the key fails or the key has no entry; the string returned
with an error is empty; and a key without entry whose read succeeds gives the
not-found error, not an empty payload. -/
theorem payload_load_error_iff (addr : List Char) (db : CacheDB) (c : Nat) (t : List Char) :
    ((GetTxJsonInfo addr db c t).1.2 ≠ none ↔
      (db.readFails (payloadKey addr c t) = true ∨ db.entries (payloadKey addr c t) = none)) ∧
    ((GetTxJsonInfo addr db c t).1.2 ≠ none → (GetTxJsonInfo addr db c t).1.1 = []) ∧
    (db.readFails (payloadKey addr c t) = false → db.entries (payloadKey addr c t) = none →
      (GetTxJsonInfo addr db c t).1 = ([], some StoreError.notFound)) := by
  have hk : payloadKey addr c t = ConcatKey addr [RIPPLE_TX_INFO, GetUint64Bytes c, t] := rfl
  simp only [GetTxJsonInfo, CacheDB.Get, hk]
  generalize ConcatKey addr [RIPPLE_TX_INFO, GetUint64Bytes c, t] = key
  cases hf : db.readFails key <;> cases he : db.entries key <;> simp

theorem payload_load_error_iff_witness :
    (GetTxJsonInfo sampleAddr emptyStore 7 "ab".toList).1 = ([], some StoreError.notFound) :=
  (payload_load_error_iff sampleAddr emptyStore 7 "ab".toList).2.2 rfl rfl

/-- Claim C13: approval load of an absent record is an empty record, not an
error.  For every store and id whose key has no entry and whose read succeeds,
`GetMultisignInfo id` returns no error and a record whose `SigMap` is
constructed and has no entries, and the store is left as it was. -/
theorem approval_load_absent (rlp : Rlp) (addr : List Char) (db : CacheDB) (id : List Char)
    (hread : db.readFails (approvalKey addr id) = false)
    (habs : db.entries (approvalKey addr id) = none) :
    GetMultisignInfo rlp addr db id = ((some ⟨some []⟩, none), db) := by
  have hread2 : db.readFails (ConcatKey addr [MULTISIGN_INFO, id]) = false := hread
  have habs2 : db.entries (ConcatKey addr [MULTISIGN_INFO, id]) = none := habs
  simp [GetMultisignInfo, CacheDB.Get, hread2, habs2]

theorem approval_load_absent_witness :
    GetMultisignInfo sampleRlp sampleAddr emptyStore "tx1".toList =
      ((some ⟨some []⟩, none), emptyStore) :=
  approval_load_absent sampleRlp sampleAddr emptyStore "tx1".toList rfl rfl

/-- Claim C14 as stated fails: on a store whose reads fail, `PutMultisignInfo`
returns nil for a record whose serialization succeeds and round-trips, yet the
following `GetMultisignInfo` of the same id returns the read error and no
record. -/
theorem approval_save_load_counterexample :
    ¬ ((PutMultisignInfo sampleRlp sampleAddr failingStore "tx1".toList sampleInfo).1 = none →
        (∀ blob, sampleRlp.EncodeToBytes sampleInfo = Except.ok blob →
          sampleRlp.DecodeBytes blob ⟨some []⟩ = Except.ok sampleInfo) →
        (GetMultisignInfo sampleRlp sampleAddr
          (PutMultisignInfo sampleRlp sampleAddr failingStore "tx1".toList sampleInfo).2
          "tx1".toList).1 = (some sampleInfo, none)) := by
  intro h
  have h2 := h rfl (fun _ _ => rfl)
  exact absurd h2 (by decide)

/-- Claim C14, amended: approval save then load.  For every store, id and record
`r`, if `PutMultisignInfo id r` returns nil, the serializer's decode (into the
fresh record that `GetMultisignInfo` supplies) undoes its encode of `r`, and the
store read of the key succeeds, then `GetMultisignInfo id` on the resulting
store returns no error and the record `r`, hence exactly its signer-to-boolean
entries. -/
theorem approval_save_load (rlp : Rlp) (addr : List Char) (db : CacheDB) (id : List Char)
    (r : MultisignInfo)
    (hput : (PutMultisignInfo rlp addr db id r).1 = none)
    (hrt : ∀ blob, rlp.EncodeToBytes r = Except.ok blob →
      rlp.DecodeBytes blob ⟨some []⟩ = Except.ok r)
    (hread : (PutMultisignInfo rlp addr db id r).2.readFails (approvalKey addr id) = false) :
    (GetMultisignInfo rlp addr (PutMultisignInfo rlp addr db id r).2 id).1 =
      (some r, none) := by
  have hk : approvalKey addr id = ConcatKey addr [MULTISIGN_INFO, id] := rfl
  rw [hk] at hread
  cases henc : rlp.EncodeToBytes r with
  | error e => simp [PutMultisignInfo, henc] at hput
  | ok blob =>
    have hdec := hrt blob henc
    simp only [PutMultisignInfo, henc] at hread ⊢
    have hread2 : db.readFails (ConcatKey addr [MULTISIGN_INFO, id]) = false := hread
    simp [GetMultisignInfo, CacheDB.Get, CacheDB.Put, hread2, hdec]

theorem approval_save_load_witness :
    (GetMultisignInfo sampleRlp sampleAddr
      (PutMultisignInfo sampleRlp sampleAddr emptyStore "tx1".toList sampleInfo).2
      "tx1".toList).1 = (some sampleInfo, none) :=
  approval_save_load sampleRlp sampleAddr emptyStore "tx1".toList sampleInfo rfl
    (fun _ _ => rfl) rfl

/-- Claim C15: approval keys are unique per transaction id.  For ids
`id1 ≠ id2` the storage keys differ, and `PutMultisignInfo id1 r` leaves the
result of `GetMultisignInfo id2` unchanged, for every record and store. -/
theorem approval_keys_unique (rlp : Rlp) (addr : List Char) (db : CacheDB)
    (id1 id2 : List Char) (r : MultisignInfo) (hne : id1 ≠ id2) :
    approvalKey addr id1 ≠ approvalKey addr id2 ∧
    (GetMultisignInfo rlp addr (PutMultisignInfo rlp addr db id1 r).2 id2).1 =
      (GetMultisignInfo rlp addr db id2).1 := by
  have hkey : approvalKey addr id2 ≠ approvalKey addr id1 :=
    fun h => hne (approvalKey_injective h).symm
  refine ⟨fun h => hkey h.symm, ?_⟩
  cases henc : rlp.EncodeToBytes r with
  | error e => simp [PutMultisignInfo, henc]
  | ok blob =>
    simp only [PutMultisignInfo, henc]
    exact GetMultisignInfo_congr rlp addr _ db id2 (Get_Put_other db blob hkey)

theorem approval_keys_unique_witness :
    approvalKey sampleAddr "tx1".toList ≠ approvalKey sampleAddr "tx2".toList ∧
    (GetMultisignInfo sampleRlp sampleAddr
      (PutMultisignInfo sampleRlp sampleAddr emptyStore "tx1".toList sampleInfo).2
      "tx2".toList).1 = (GetMultisignInfo sampleRlp sampleAddr emptyStore "tx2".toList).1 :=
  approval_keys_unique sampleRlp sampleAddr emptyStore "tx1".toList "tx2".toList sampleInfo
    (by decide)

/-- Claim C17: payload writes touch one key only.  For every store, chain id `c`
(a `uint64`), hash `t` and payload `s`: the payload key of any other pair
`(c2, t2)` differs from that of `(c, t)` and `PutTxJsonInfo c t s` leaves the
result of `GetTxJsonInfo c2 t2` unchanged; and no approval key equals the
payload key, so the result of `GetMultisignInfo id` is unchanged for every id. -/
theorem payload_write_frame (addr : List Char) (db : CacheDB) (c : Nat) (t s : List Char)
    (hc : c < 2 ^ 64) :
    (∀ (c2 : Nat) (t2 : List Char), c2 < 2 ^ 64 → (c2, t2) ≠ (c, t) →
      payloadKey addr c2 t2 ≠ payloadKey addr c t ∧
      (GetTxJsonInfo addr (PutTxJsonInfo addr db c t s) c2 t2).1 =
        (GetTxJsonInfo addr db c2 t2).1) ∧
    (∀ (rlp : Rlp) (id : List Char),
      approvalKey addr id ≠ payloadKey addr c t ∧
      (GetMultisignInfo rlp addr (PutTxJsonInfo addr db c t s) id).1 =
        (GetMultisignInfo rlp addr db id).1) := by
  constructor
  · intro c2 t2 hc2 hne
    have hkey : payloadKey addr c2 t2 ≠ payloadKey addr c t := by
      intro h
      obtain ⟨h1, h2⟩ := payloadKey_injective hc2 hc h
      exact hne (by rw [h1, h2])
    exact ⟨hkey, GetTxJsonInfo_congr addr _ db c2 t2 (Get_Put_other db s hkey)⟩
  · intro rlp id
    have hkey : approvalKey addr id ≠ payloadKey addr c t :=
      fun h => payloadKey_ne_approvalKey addr c t id h.symm
    exact ⟨hkey, GetMultisignInfo_congr rlp addr _ db id (Get_Put_other db s hkey)⟩

theorem payload_write_frame_witness :
    (GetTxJsonInfo sampleAddr (PutTxJsonInfo sampleAddr emptyStore 7 "ab".toList "json".toList)
        8 "ab".toList).1 = (GetTxJsonInfo sampleAddr emptyStore 8 "ab".toList).1 ∧
    (GetMultisignInfo sampleRlp sampleAddr
        (PutTxJsonInfo sampleAddr emptyStore 7 "ab".toList "json".toList) "tx1".toList).1 =
      (GetMultisignInfo sampleRlp sampleAddr emptyStore "tx1".toList).1 :=
  ⟨((payload_write_frame sampleAddr emptyStore 7 "ab".toList "json".toList (by norm_num)).1
      8 "ab".toList (by norm_num) (by decide)).2,
   ((payload_write_frame sampleAddr emptyStore 7 "ab".toList "json".toList (by norm_num)).2
      sampleRlp "tx1".toList).2⟩

/-! ## Further claims about the codec -/

/-- Claim C16: the round trip also holds for negative amounts.  For every
negative integer `v` and every precision `p`, `ToStringByPrecise v p` returns a
string, and `ToIntByPrecise` applied to it at the same precision returns `v`. -/
theorem roundtrip_negative (v : Int) (p : Nat) (hv : v < 0) :
    (ToStringByPrecise v p).bind (fun s => ToIntByPrecise s p) = some v := by
  obtain ⟨n, rfl⟩ := Int.eq_negSucc_of_lt_zero hv
  rw [encode_then_decode (Int.negSucc n) p p,
    Nat.mul_div_cancel _ (by positivity : 0 < 10 ^ p), Int.sign_mul_natAbs]

theorem roundtrip_negative_witness :
    (ToStringByPrecise (-5) 2).bind (fun s => ToIntByPrecise s 2) = some (-5) :=
  roundtrip_negative (-5) 2 (by decide)

/-- Claim C18: encode followed by decode at a different precision rescales
exactly.  For every integer `v` and all precisions `p` and `q`, decoding at `q`
the rendering of `v` at `p` gives `v * 10^(q-p)` when `q >= p`, and `v` divided
by `10^(p-q)`, truncated toward zero, when `q < p`. -/
theorem rescale (v : Int) (p q : Nat) :
    (ToStringByPrecise v p).bind (fun s => ToIntByPrecise s q) =
      some (if p ≤ q then v * 10 ^ (q - p) else v.tdiv (10 ^ (p - q))) := by
  rw [encode_then_decode v p q]
  by_cases h : p ≤ q
  · simp only [h, if_true]
    have e : v.natAbs * 10 ^ q / 10 ^ p = v.natAbs * 10 ^ (q - p) := by
      have : (10 : Nat) ^ q = 10 ^ (q - p) * 10 ^ p := by
        rw [← pow_add, Nat.sub_add_cancel h]
      rw [this, ← Nat.mul_assoc]
      exact Nat.mul_div_cancel _ (by positivity)
    rw [e, Nat.cast_mul, ← mul_assoc, Int.sign_mul_natAbs]
    push_cast
    rfl
  · simp only [h, if_false]
    have hq : q ≤ p := by omega
    have e : v.natAbs * 10 ^ q / 10 ^ p = v.natAbs / 10 ^ (p - q) := by
      have : (10 : Nat) ^ p = 10 ^ (p - q) * 10 ^ q := by
        rw [← pow_add, Nat.sub_add_cancel hq]
      rw [this]
      exact Nat.mul_div_mul_right _ _ (by positivity)
    rw [e, sign_mul_natAbs_div]
    push_cast
    rfl

/-- Claim C19: the codec never indexes out of range.  `ToStringByPrecise`
returns for every integer and precision, and `ToIntByPrecise` for every text and
precision; on the way, the split index `destLen - precise` lies in
`[1, destLen]` and both slices at it are in range, both strings handed to
`removeZeroAtTail` contain a point, `removeZeroAtTail` returns on every string
containing a point, and `splits[1][:precise]` is in range whenever `precise` is
below the length of `splits[1]`. -/
theorem codec_never_panics :
    (∀ (v : Int) (p : Nat), (ToStringByPrecise v p).isSome = true) ∧
    (∀ (text : List Char) (p : Nat), (ToIntByPrecise text p).isSome = true) ∧
    (∀ (v : Int) (p : Nat), ¬ p ≥ (bigString v).length →
      1 ≤ (bigString v).length - p ∧ (bigString v).length - p ≤ (bigString v).length ∧
      (goSlice (bigString v) 0 ((bigString v).length - p)).isSome = true ∧
      (goSlice (bigString v) ((bigString v).length - p) (bigString v).length).isSome = true) ∧
    (∀ (k : Nat) (destStr a b : List Char),
      '.' ∈ appendZeros ['0', '.'] k ++ destStr ∧ '.' ∈ a ++ ['.'] ++ b) ∧
    (∀ str : List Char, '.' ∈ str → (removeZeroAtTail str).isSome = true) ∧
    (∀ (s1 : List Char) (p : Nat), ¬ s1.length ≤ p → (goSlice s1 0 p).isSome = true) := by
  refine ⟨?_, ToIntByPrecise_isSome, ?_, ?_, fun str h => removeZeroAtTail_isSome h, ?_⟩
  · intro v p
    obtain ⟨sgn, a, b1, _, _, _, _, _, _, h⟩ := ToStringByPrecise_shape v p
    rw [h]; rfl
  · intro v p h
    refine ⟨by omega, by omega, ?_, ?_⟩
    · simp [goSlice]
    · simp [goSlice]
  · intro k destStr a b
    constructor
    · rw [appendZeros_eq]; simp
    · simp
  · intro s1 p h
    have : p ≤ s1.length := by omega
    simp [goSlice, this]

theorem codec_never_panics_witness :
    (ToStringByPrecise (-5) 2).isSome = true ∧ (ToIntByPrecise "1.2345".toList 2).isSome = true ∧
      (removeZeroAtTail "0.".toList).isSome = true :=
  ⟨codec_never_panics.1 (-5) 2, codec_never_panics.2.1 "1.2345".toList 2,
   codec_never_panics.2.2.2.2.1 "0.".toList (by decide)⟩

/-- Claim C20: encode output is in canonical form.  For every integer `v` and
precision `p`, `ToStringByPrecise v p` returns a string that is non-empty,
contains at most one point and does not end with a point; if it contains a
point, its last byte is a non-zero digit; and its integer part (between the sign,
if any, and the point, if any) is a non-empty digit string that is `"0"` or does
not start with `0`. -/
theorem encode_canonical (v : Int) (p : Nat) :
    ∃ s, ToStringByPrecise v p = some s ∧ s ≠ [] ∧ s.count '.' ≤ 1 ∧
      s.getLast? ≠ some '.' ∧
      ('.' ∈ s → ∃ c, s.getLast? = some c ∧ isDigit c = true ∧ c ≠ '0') ∧
      intPart s ≠ [] ∧ allDigits (intPart s) = true ∧
      (intPart s = ['0'] ∨ (intPart s).head? ≠ some '0') := by
  obtain ⟨sgn, a, b1, hsgn, hne, ha, hb, hhead, hlast, h⟩ := ToStringByPrecise_shape v p
  obtain ⟨c1, c2, c3, c4⟩ := canonical_of_shape sgn a b1 hsgn hne ha hb hlast
  refine ⟨_, h, c1, c2, c3, c4, ?_⟩
  rw [intPart_shape sgn a b1 hsgn hne ha]
  exact ⟨hne, ha, hhead⟩

theorem encode_canonical_witness :
    ∃ s, ToStringByPrecise (-1050) 3 = some s ∧ s ≠ [] ∧ s.count '.' ≤ 1 ∧
      s.getLast? ≠ some '.' ∧
      ('.' ∈ s → ∃ c, s.getLast? = some c ∧ isDigit c = true ∧ c ≠ '0') ∧
      intPart s ≠ [] ∧ allDigits (intPart s) = true ∧
      (intPart s = ['0'] ∨ (intPart s).head? ≠ some '0') :=
  encode_canonical (-1050) 3

end Ripple
